import Mathlib

/-!
# AiWeb rewriting proxy (`api/proxy.js`): a shallow embedding

The development embeds the helper functions of `api/proxy.js` (URL resolution,
proxied-URL encoding, the markup, stylesheet and script rewriters, the injected
shim and navigation bar, the origin fetcher and the request handler) together
with the parts of the JavaScript platform they call: string trimming, regular
expressions (a backtracking matcher after ECMA-262 §22.2.2), `String.replace`,
`encodeURIComponent`, `decodeURIComponent`, `JSON.stringify`, UTF-8 conversion
of buffers, and the WHATWG URL parser.

Modelling conventions.
* A JavaScript string is the list of its Unicode code points (`Str`): strings
  are well-formed UTF-16, without lone surrogates.
* A buffer is a list of bytes (`List Nat`, every entry below 256).
* An exception is `none` in an `Option` result.
* Recursion without a bound in the source (redirect following) takes a fuel
  argument; `none` at top level then means that the fuel ran out.
-/

namespace AiWeb

/-- A JavaScript string as the list of its code points. -/
abbrev Str := List Char

/-! ## Characters and strings of the platform -/

/-- ECMAScript `WhiteSpace` and `LineTerminator` code points: what
`String.prototype.trim` strips and what `\s` matches. -/
def isWhiteSpace (c : Char) : Bool :=
  let n := c.toNat
  n == 0x09 || n == 0x0A || n == 0x0B || n == 0x0C || n == 0x0D || n == 0x20 ||
  n == 0xA0 || n == 0x1680 || (0x2000 ≤ n && n ≤ 0x200A) || n == 0x2028 ||
  n == 0x2029 || n == 0x202F || n == 0x205F || n == 0x3000 || n == 0xFEFF

/-- The method `String.prototype.trimStart`. -/
def trimStart : Str → Str
  | [] => []
  | c :: cs => if isWhiteSpace c then trimStart cs else c :: cs

/-- The method `String.prototype.trimEnd`: drop the trailing white space. -/
def trimEnd : Str → Str
  | [] => []
  | c :: cs =>
    match trimEnd cs with
    | [] => if isWhiteSpace c then [] else [c]
    | r => c :: r

/-- The method `String.prototype.trim`. -/
def trim (s : Str) : Str := trimEnd (trimStart s)

/-- Upper-case an ASCII letter, leave every other code point alone. This is
the `Canonicalize` of a case-insensitive, non-unicode regular expression as
far as it can relate a code point to an ASCII pattern character: a code point
above 127 is never canonicalised to one below 128. -/
def canonicalize (c : Char) : Char :=
  if 97 ≤ c.toNat ∧ c.toNat ≤ 122 then Char.ofNat (c.toNat - 32) else c

/-- Lower-case an ASCII letter, leave every other code point alone. -/
def asciiLower (c : Char) : Char :=
  if 65 ≤ c.toNat ∧ c.toNat ≤ 90 then Char.ofNat (c.toNat + 32) else c

/-- The method `String.prototype.startsWith`. -/
def startsWith : Str → Str → Bool
  | _, [] => true
  | [], _ :: _ => false
  | c :: cs, p :: ps => c == p && startsWith cs ps

/-- The method `String.prototype.includes`. -/
def includes : Str → Str → Bool
  | [], p => p.isEmpty
  | c :: cs, p => startsWith (c :: cs) p || includes cs p

/-- The method `String.prototype.endsWith`. -/
def endsWith (s p : Str) : Bool := startsWith s.reverse p.reverse

/-- The method `Array.prototype.join` on strings. -/
def join (sep : Str) : List Str → Str
  | [] => []
  | [a] => a
  | a :: b :: rest => a ++ sep ++ join sep (b :: rest)

/-- The method `String.prototype.split` with a one-character separator. -/
def splitOn (sep : Char) : Str → List Str
  | [] => [[]]
  | c :: cs =>
    match splitOn sep cs with
    | [] => [[]]
    | p :: ps => if c == sep then [] :: p :: ps else (c :: p) :: ps

/-! ## Regular expressions (ECMA-262 §22.2.2, non-unicode mode) -/

/-- One member of a character class. -/
inductive ClassItem where
  | ch (c : Char)
  | space
  | nonSpace
  deriving Repr, DecidableEq

/-- The patterns used by `proxy.js`. -/
inductive Re where
  | empty
  | ch (c : Char)
  | cls (negated : Bool) (items : List ClassItem)
  | seq (a b : Re)
  | alt (a b : Re)
  | rep (min : Nat) (max : Option Nat) (greedy : Bool) (r : Re)
  | group (idx : Nat) (r : Re)
  | backref (idx : Nat)
  | notAhead (r : Re)
  | bol
  deriving Repr

/-- The matcher state: the index reached (`endIndex`), the text ahead of it,
and the captures, most recent first. -/
structure MState where
  pos : Nat
  rest : Str
  caps : List (Nat × Str)

/-- The capture of group `i`, if it took part in the match. -/
def MState.cap (x : MState) (i : Nat) : Option Str :=
  (x.caps.find? (fun p => p.1 == i)).map (fun p => p.2)

/-- The numbers of the capture groups inside a pattern. -/
def Re.groups : Re → List Nat
  | .seq a b => a.groups ++ b.groups
  | .alt a b => a.groups ++ b.groups
  | .rep _ _ _ r => r.groups
  | .group i r => i :: r.groups
  | .notAhead r => r.groups
  | _ => []

/-- Whether a pattern character matches a code point: equal, or equal after
the canonicalisation of the `i` flag when `ci` is set. -/
def sameChar (ci : Bool) (a c : Char) : Bool :=
  if ci then canonicalize a == canonicalize c else a == c

/-- Membership of a code point in a class item. -/
def ClassItem.has (ci : Bool) (c : Char) : ClassItem → Bool
  | .ch a => sameChar ci a c
  | .space => isWhiteSpace c
  | .nonSpace => !isWhiteSpace c

/-- Consume `pat` from the front of `s`, comparing as a backreference does. -/
def eatLiteral (ci : Bool) : Str → Str → Option Str
  | [], s => some s
  | _ :: _, [] => none
  | p :: ps, c :: cs =>
    if sameChar ci p c then eatLiteral ci ps cs else none

/-- The `RepeatMatcher` of ECMA-262: `m` is the matcher of the repeated atom,
`grp` its capture groups (reset on every iteration), `c` the continuation.
An iteration that consumes nothing once `min` is reached fails. The first
argument bounds the number of iterations and starts above `min` plus the
length of the text ahead, which no run exceeds. -/
def repeatMatcher (m : (MState → Option MState) → MState → Option MState)
    (grp : List Nat) (greedy : Bool) :
    Nat → Nat → Option Nat → (MState → Option MState) → MState → Option MState
  | 0, _, _, _, _ => none
  | fuel + 1, min, max, c, x =>
    if max == some 0 then c x
    else
      let d : MState → Option MState := fun y =>
        if min == 0 && y.pos == x.pos then none
        else repeatMatcher m grp greedy fuel (min - 1) (max.map (fun k => k - 1)) c y
      let xr : MState := { x with caps := x.caps.filter (fun p => !grp.contains p.1) }
      if min != 0 then m d xr
      else if greedy then
        match m d xr with
        | some z => some z
        | none => c x
      else
        match c x with
        | some z => some z
        | none => m d xr

/-- The matcher of a pattern in continuation-passing style: `matchRe ci r c x`
matches `r` at state `x` and hands every way of matching, in the order of
ECMA-262's backtracking, to the continuation `c` until one succeeds. -/
def matchRe (ci : Bool) : Re → (MState → Option MState) → MState → Option MState
  | .empty, c, x => c x
  | .ch a, c, x =>
    match x.rest with
    | [] => none
    | b :: bs =>
      if sameChar ci a b then c { x with pos := x.pos + 1, rest := bs } else none
  | .cls negated items, c, x =>
    match x.rest with
    | [] => none
    | b :: bs =>
      if (items.any (ClassItem.has ci b)) != negated
      then c { x with pos := x.pos + 1, rest := bs } else none
  | .seq a b, c, x => matchRe ci a (fun y => matchRe ci b c y) x
  | .alt a b, c, x =>
    match matchRe ci a c x with
    | some z => some z
    | none => matchRe ci b c x
  | .rep min max greedy r, c, x =>
    repeatMatcher (matchRe ci r) r.groups greedy (min + x.rest.length + 1) min max c x
  | .group i r, c, x =>
    matchRe ci r
      (fun y => c { y with caps := (i, x.rest.take (y.pos - x.pos)) :: y.caps }) x
  | .backref i, c, x =>
    match x.cap i with
    | none => c x
    | some s =>
      match eatLiteral ci s x.rest with
      | none => none
      | some rest => c { x with pos := x.pos + s.length, rest := rest }
  | .notAhead r, c, x =>
    match matchRe ci r some x with
    | some _ => none
    | none => c x
  | .bol, c, x => if x.pos == 0 then c x else none

/-- A regular expression object: pattern and `i` flag. -/
structure RegExp where
  re : Re
  ignoreCase : Bool

/-- A successful match: the text before it, the matched text, the text after
it, and the captures. -/
structure Match where
  before : Str
  matched : Str
  after : Str
  caps : List (Nat × Str)
  deriving Repr, DecidableEq

/-- The capture of group `i` of a match (`undefined` is `none`). -/
def Match.cap (m : Match) (i : Nat) : Option Str :=
  (m.caps.find? (fun p => p.1 == i)).map (fun p => p.2)

/-- Try the pattern at one position: `before` is the text in front of the
position, reversed, and `rest` the text from the position on. -/
def matchAt (R : RegExp) (before : Str) (rest : Str) : Option Match :=
  match matchRe R.ignoreCase R.re some { pos := before.length, rest := rest, caps := [] } with
  | none => none
  | some y =>
    some { before := before.reverse,
           matched := rest.take (y.pos - before.length),
           after := y.rest,
           caps := y.caps }

/-- The search loop of `RegExpBuiltinExec`: the first position, from the
current one on, at which the pattern matches. -/
def execFrom (R : RegExp) : Str → Str → Option Match
  | before, [] => matchAt R before []
  | before, c :: cs =>
    match matchAt R before (c :: cs) with
    | some m => some m
    | none => execFrom R (c :: before) cs

/-- The method `RegExp.prototype.exec` on a fresh regular expression, and
`String.prototype.match` without the `g` flag. -/
def RegExp.exec (R : RegExp) (s : Str) : Option Match := execFrom R [] s

/-- The method `RegExp.prototype.test` on a fresh regular expression. -/
def RegExp.test (R : RegExp) (s : Str) : Bool := (R.exec s).isSome

/-- The result text of `String.prototype.replace` with the `g` flag and a
replacer function: every match, left to right, is replaced by `f` of it; after
an empty match the search moves on by one code point. The first argument
bounds the number of matches and starts above the length of the text. -/
def replaceAllFrom (R : RegExp) (f : Match → Str) : Nat → Str → Str → Str
  | 0, _, rest => rest
  | fuel + 1, before, rest =>
    match execFrom R before rest with
    | none => rest
    | some m =>
      let skipped := rest.take (m.before.length - before.length)
      let seen := m.matched.reverse ++ m.before.reverse
      if m.matched.isEmpty then
        match m.after with
        | [] => skipped ++ f m
        | c :: cs => skipped ++ f m ++ c :: replaceAllFrom R f fuel (c :: seen) cs
      else skipped ++ f m ++ replaceAllFrom R f fuel seen m.after

/-- The call `s.replace(R, f)` for a regular expression with the `g` flag. -/
def replaceAll (R : RegExp) (f : Match → Str) (s : Str) : Str :=
  replaceAllFrom R f (s.length + 1) [] s

/-- The call `s.replace(R, f)` for a regular expression without the `g` flag:
the first match only. -/
def replaceFirst (R : RegExp) (f : Match → Str) (s : Str) : Str :=
  match R.exec s with
  | none => s
  | some m => m.before ++ f m ++ m.after

/-- The decimal digit a code point stands for. -/
def digitVal (c : Char) : Option Nat :=
  if 48 ≤ c.toNat ∧ c.toNat ≤ 57 then some (c.toNat - 48) else none

/-- The text a capture contributes to a substitution. -/
def capText (m : Match) (i : Nat) : Str := (m.cap i).getD []

/-- ECMA-262 `GetSubstitution` for a match of a pattern with `ncap` capture
groups and no named groups: expands `$$`, `$&`, the text before and after the
match, and `$n`, `$nn` in the replacement template. -/
def getSubstitution (ncap : Nat) (m : Match) : Str → Str
  | [] => []
  | [c] => [c]
  | c :: d :: rest =>
    if c != '$' then c :: getSubstitution ncap m (d :: rest)
    else if d == '$' then '$' :: getSubstitution ncap m rest
    else if d == '&' then m.matched ++ getSubstitution ncap m rest
    else if d == '\x60' then m.before ++ getSubstitution ncap m rest
    else if d == '\'' then m.after ++ getSubstitution ncap m rest
    else
      match digitVal d with
      | none => c :: getSubstitution ncap m (d :: rest)
      | some a =>
        match rest with
        | [] =>
          if 1 ≤ a ∧ a ≤ ncap then capText m a else [c, d]
        | e :: rest2 =>
          match digitVal e with
          | some b =>
            if 1 ≤ 10 * a + b ∧ 10 * a + b ≤ ncap then
              capText m (10 * a + b) ++ getSubstitution ncap m rest2
            else if 1 ≤ a ∧ a ≤ ncap then capText m a ++ getSubstitution ncap m (e :: rest2)
            else c :: d :: getSubstitution ncap m (e :: rest2)
          | none =>
            if 1 ≤ a ∧ a ≤ ncap then capText m a ++ getSubstitution ncap m (e :: rest2)
            else c :: d :: getSubstitution ncap m (e :: rest2)

/-- The call `s.replace(R, template)` for a regular expression without the
`g` flag and a replacement string. -/
def replaceFirstStr (R : RegExp) (template : Str) (s : Str) : Str :=
  replaceFirst R (fun m => getSubstitution R.re.groups.length m template) s

/-- The call `s.replace(R, template)` with the `g` flag and a replacement
string. -/
def replaceAllStr (R : RegExp) (template : Str) (s : Str) : Str :=
  replaceAll R (fun m => getSubstitution R.re.groups.length m template) s

/-- The loop of `RegExp.prototype[Symbol.split]` for a pattern without capture
groups: `cur` is the piece being collected (reversed), `q` the text from the
search position on; a match that would end where the piece starts is skipped. -/
def splitReFrom (R : RegExp) : Nat → Str → Str → List Str
  | 0, cur, q => [cur.reverse ++ q]
  | _ + 1, cur, [] => [cur.reverse]
  | fuel + 1, cur, c :: cs =>
    match matchRe R.ignoreCase R.re some { pos := 0, rest := c :: cs, caps := [] } with
    | none => splitReFrom R fuel (c :: cur) cs
    | some y =>
      if y.pos == 0 && cur.isEmpty then splitReFrom R fuel (c :: cur) cs
      else cur.reverse :: splitReFrom R fuel [] y.rest

/-- The call `s.split(R)` for a pattern without capture groups and without
anchors. -/
def splitRe (R : RegExp) (s : Str) : List Str :=
  match s with
  | [] => if (matchRe R.ignoreCase R.re some { pos := 0, rest := [], caps := [] }).isSome
          then [] else [[]]
  | _ => splitReFrom R (2 * s.length + 1) [] s

/-! ## The regular expression literals of `proxy.js` -/

/-- A literal text as a pattern. -/
def Re.str : Str → Re
  | [] => .empty
  | [c] => .ch c
  | c :: cs => .seq (.ch c) (Re.str cs)

/-- Concatenation of a list of patterns. -/
def Re.cat : List Re → Re
  | [] => .empty
  | [r] => r
  | r :: rs => .seq r (Re.cat rs)

/-- Alternation of a non-empty list of patterns. -/
def Re.anyOf : List Re → Re
  | [] => .empty
  | [r] => r
  | r :: rs => .alt r (Re.anyOf rs)

/-- The quantifier `*`. -/
def Re.star (r : Re) : Re := .rep 0 none true r
/-- The quantifier `+`. -/
def Re.plus (r : Re) : Re := .rep 1 none true r
/-- The quantifier `?`. -/
def Re.opt (r : Re) : Re := .rep 0 (some 1) true r
/-- The quantifier `*?`. -/
def Re.lazyStar (r : Re) : Re := .rep 0 none false r
/-- The class escape `\s`. -/
def Re.ws : Re := .cls false [.space]
/-- The negated class of the given characters: `[^...]`. -/
def Re.noneOf (cs : Str) : Re := .cls true (cs.map ClassItem.ch)
/-- The class of the given characters: `[...]`. -/
def Re.oneOf (cs : Str) : Re := .cls false (cs.map ClassItem.ch)

/-- The class `["']`. -/
def quoteCls : Re := Re.oneOf "\"'".toList
/-- The class `[^"']`. -/
def notQuoteCls : Re := Re.noneOf "\"'".toList
/-- The class `[^>]`. -/
def notGtCls : Re := Re.noneOf ">".toList

/-- The pattern `/^https?:\/\//i`. -/
def httpRe : RegExp :=
  ⟨Re.cat [.bol, Re.str "http".toList, Re.opt (.ch 's'), Re.str "://".toList], true⟩

/-- The pattern `/^(javascript:|mailto:|tel:|data:|blob:|#)/i`. -/
def excludedRe : RegExp :=
  ⟨Re.cat [.bol, .group 1 (Re.anyOf [Re.str "javascript:".toList, Re.str "mailto:".toList,
      Re.str "tel:".toList, Re.str "data:".toList, Re.str "blob:".toList,
      Re.str "#".toList])], true⟩

/-- The pattern `/^(data:|blob:)/i`, used on srcset candidates and stylesheet
references. -/
def dataBlobRe : RegExp :=
  ⟨Re.cat [.bol, .group 1 (Re.anyOf [Re.str "data:".toList, Re.str "blob:".toList])], true⟩

/-- The pattern `/<base[^>]+href\s*=\s*["']([^"']+)["'][^>]*>/i`. -/
def baseHrefRe : RegExp :=
  ⟨Re.cat [Re.str "<base".toList, Re.plus notGtCls, Re.str "href".toList, Re.star Re.ws,
      .ch '=', Re.star Re.ws, quoteCls, .group 1 (Re.plus notQuoteCls), quoteCls,
      Re.star notGtCls, .ch '>'], true⟩

/-- The pattern `/<base[^>]+>/gi`. -/
def baseTagRe : RegExp :=
  ⟨Re.cat [Re.str "<base".toList, Re.plus notGtCls, .ch '>'], true⟩

/-- The recognised URL attributes, in the order of the source. -/
def urlAttrs : List Str :=
  ["href".toList, "src".toList, "action".toList, "data-src".toList, "data-href".toList,
   "data-url".toList, "data-lazy".toList, "data-original".toList, "poster".toList,
   "background".toList]

/-- The pattern built for one attribute name:
`(attr)\s*=\s*(["'])([^"']+)\2` with flags `gi`. -/
def attrRe (attr : Str) : RegExp :=
  ⟨Re.cat [.group 1 (Re.str attr), Re.star Re.ws, .ch '=', Re.star Re.ws,
      .group 2 quoteCls, .group 3 (Re.plus notQuoteCls), .backref 2], true⟩

/-- The pattern `/srcset\s*=\s*(["'])([^"']+)\1/gi`. -/
def srcsetRe : RegExp :=
  ⟨Re.cat [Re.str "srcset".toList, Re.star Re.ws, .ch '=', Re.star Re.ws,
      .group 1 quoteCls, .group 2 (Re.plus notQuoteCls), .backref 1], true⟩

/-- The pattern `/\s+/`. -/
def spacesRe : RegExp := ⟨Re.plus Re.ws, false⟩

/-- The pattern `/<style([^>]*)>([\s\S]*?)<\/style>/gi`. -/
def styleBlockRe : RegExp :=
  ⟨Re.cat [Re.str "<style".toList, .group 1 (Re.star notGtCls), .ch '>',
      .group 2 (Re.lazyStar (.cls false [.space, .nonSpace])), Re.str "</style>".toList], true⟩

/-- The pattern `/style\s*=\s*(["'])([^"']+)\1/gi`. -/
def styleAttrRe : RegExp :=
  ⟨Re.cat [Re.str "style".toList, Re.star Re.ws, .ch '=', Re.star Re.ws,
      .group 1 quoteCls, .group 2 (Re.plus notQuoteCls), .backref 1], true⟩

/-- The pattern `/url\(\s*["']?([^"')]+)["']?\s*\)/gi`. -/
def cssUrlRe : RegExp :=
  ⟨Re.cat [Re.str "url(".toList, Re.star Re.ws, Re.opt quoteCls,
      .group 1 (Re.plus (Re.noneOf "\"')".toList)), Re.opt quoteCls, Re.star Re.ws,
      .ch ')'], true⟩

/-- The pattern `/@import\s+["']([^"']+)["']/gi`. -/
def cssImportRe : RegExp :=
  ⟨Re.cat [Re.str "@import".toList, Re.plus Re.ws, quoteCls,
      .group 1 (Re.plus notQuoteCls), quoteCls], true⟩

/-- The pattern `/<script([^>]*)>([\s\S]*?)<\/script>/gi`. -/
def scriptBlockRe : RegExp :=
  ⟨Re.cat [Re.str "<script".toList, .group 1 (Re.star notGtCls), .ch '>',
      .group 2 (Re.lazyStar (.cls false [.space, .nonSpace])), Re.str "</script>".toList], true⟩

/-- The pattern
`/type\s*=\s*["'](?!text\/javascript|application\/javascript|module)[^"']+["']/i`. -/
def scriptTypeRe : RegExp :=
  ⟨Re.cat [Re.str "type".toList, Re.star Re.ws, .ch '=', Re.star Re.ws, quoteCls,
      .notAhead (Re.anyOf [Re.str "text/javascript".toList,
        Re.str "application/javascript".toList, Re.str "module".toList]),
      Re.plus notQuoteCls, quoteCls], true⟩

/-- The pattern `/(['"])(https?:\/\/[^"'<>\s]{4,})\1/gi`. The bound `{4,}`
counts code points here and UTF-16 code units in the source, which differ for
code points above U+FFFF only. -/
def jsUrlRe : RegExp :=
  ⟨Re.cat [.group 1 (Re.oneOf "'\"".toList),
      .group 2 (Re.cat [Re.str "http".toList, Re.opt (.ch 's'), Re.str "://".toList,
        .rep 4 none true (.cls true [.ch '"', .ch '\'', .ch '<', .ch '>', .space])]),
      .backref 1], true⟩

/-- The pattern `/<head/i`. -/
def headRe : RegExp := ⟨Re.str "<head".toList, true⟩
/-- The pattern `/(<head[^>]*>)/i`. -/
def headTagRe : RegExp :=
  ⟨.group 1 (Re.cat [Re.str "<head".toList, Re.star notGtCls, .ch '>']), true⟩
/-- The pattern `/<body/i`. -/
def bodyRe : RegExp := ⟨Re.str "<body".toList, true⟩
/-- The pattern `/(<body[^>]*>)/i`. -/
def bodyTagRe : RegExp :=
  ⟨.group 1 (Re.cat [Re.str "<body".toList, Re.star notGtCls, .ch '>']), true⟩
/-- The pattern `/"/g`. -/
def dquoteRe : RegExp := ⟨.ch '"', false⟩

/-! ## `encodeURIComponent`, `decodeURIComponent`, `JSON.stringify` -/

/-- The characters `encodeURIComponent` leaves alone: ASCII letters, digits and
`- _ . ! ~ * ' ( )`. -/
def isUriUnescaped (c : Char) : Bool :=
  let n := c.toNat
  (65 ≤ n && n ≤ 90) || (97 ≤ n && n ≤ 122) || (48 ≤ n && n ≤ 57) ||
  n == 45 || n == 95 || n == 46 || n == 33 || n == 126 || n == 42 || n == 39 ||
  n == 40 || n == 41

/-- The UTF-8 encoding of a code point. -/
def utf8Bytes (c : Char) : List Nat :=
  let n := c.toNat
  if n < 0x80 then [n]
  else if n < 0x800 then [0xC0 + n / 64, 0x80 + n % 64]
  else if n < 0x10000 then [0xE0 + n / 4096, 0x80 + n / 64 % 64, 0x80 + n % 64]
  else [0xF0 + n / 262144, 0x80 + n / 4096 % 64, 0x80 + n / 64 % 64, 0x80 + n % 64]

/-- The UTF-8 encoding of a string. -/
def utf8Encode (s : Str) : List Nat := s.flatMap utf8Bytes

/-- An upper-case hexadecimal digit. -/
def hexDigit (n : Nat) : Char :=
  if n < 10 then Char.ofNat (48 + n) else Char.ofNat (55 + n)

/-- A byte as `%XX`. -/
def percentByte (b : Nat) : Str := ['%', hexDigit (b / 16), hexDigit (b % 16)]

/-- The function `encodeURIComponent` on a well-formed string. -/
def encodeURIComponent (s : Str) : Str :=
  s.flatMap (fun c => if isUriUnescaped c then [c] else (utf8Bytes c).flatMap percentByte)

/-- The value of a hexadecimal digit of either case. -/
def hexVal (c : Char) : Option Nat :=
  let n := c.toNat
  if 48 ≤ n ∧ n ≤ 57 then some (n - 48)
  else if 65 ≤ n ∧ n ≤ 70 then some (n - 55)
  else if 97 ≤ n ∧ n ≤ 102 then some (n - 87)
  else none

/-- A unit of a percent-encoded text: a literal code point or an escaped
byte. -/
inductive Tok where
  | lit (c : Char)
  | byte (b : Nat)
  deriving Repr, DecidableEq

/-- Read the `%XX` escapes of a text; a `%` without two hexadecimal digits
after it is an error (`URIError`). -/
def percentToks : Str → Option (List Tok)
  | [] => some []
  | [c] => if c == '%' then none else some [.lit c]
  | [c, d] => if c == '%' then none else (percentToks [d]).map (fun t => .lit c :: t)
  | c :: d :: e :: rest =>
    if c == '%' then
      match hexVal d, hexVal e with
      | some h, some l => (percentToks rest).map (fun t => .byte (16 * h + l) :: t)
      | _, _ => none
    else (percentToks (d :: e :: rest)).map (fun t => .lit c :: t)

/-- A UTF-8 continuation byte. -/
def isCont (b : Nat) : Bool := 0x80 ≤ b && b < 0xC0

/-- A UTF-8 sequence under way in `decodeURIComponent`: the bits read so far,
the number of continuation bytes still to come, and the least code point that
a sequence of this length may encode. -/
structure Pending where
  cp : Nat
  needed : Nat
  least : Nat

/-- Decode the escaped bytes as UTF-8, strictly: every escape sequence has to
be the shortest encoding of a code point that is no surrogate, and a literal
character may not interrupt it; anything else is an error. -/
def utf8DecodeToks : Option Pending → List Tok → Option Str
  | none, [] => some []
  | some _, [] => none
  | none, .lit c :: rest => (utf8DecodeToks none rest).map (fun t => c :: t)
  | some _, .lit _ :: _ => none
  | none, .byte b :: rest =>
    if b < 0x80 then (utf8DecodeToks none rest).map (fun t => Char.ofNat b :: t)
    else if b < 0xC0 then none
    else if b < 0xE0 then utf8DecodeToks (some ⟨b - 0xC0, 1, 0x80⟩) rest
    else if b < 0xF0 then utf8DecodeToks (some ⟨b - 0xE0, 2, 0x800⟩) rest
    else if b < 0xF8 then utf8DecodeToks (some ⟨b - 0xF0, 3, 0x10000⟩) rest
    else none
  | some st, .byte b :: rest =>
    if isCont b then
      let cp := st.cp * 64 + (b - 0x80)
      if st.needed ≤ 1 then
        if st.least ≤ cp ∧ cp < 0x110000 ∧ ¬ (0xD800 ≤ cp ∧ cp ≤ 0xDFFF) then
          (utf8DecodeToks none rest).map (fun t => Char.ofNat cp :: t)
        else none
      else utf8DecodeToks (some ⟨cp, st.needed - 1, st.least⟩) rest
    else none

/-- The function `decodeURIComponent`: `none` where it throws `URIError`. -/
def decodeURIComponent (s : Str) : Option Str :=
  (percentToks s).bind (utf8DecodeToks none)

/-- Four hexadecimal digits, lower case, as `JSON.stringify` writes them. -/
def hex4Lower (n : Nat) : Str :=
  [n / 4096 % 16, n / 256 % 16, n / 16 % 16, n % 16].map
    (fun d => if d < 10 then Char.ofNat (48 + d) else Char.ofNat (87 + d))

/-- The escape of one code point inside a JSON string (`QuoteJSONString`). -/
def jsonEscape (c : Char) : Str :=
  let n := c.toNat
  if n == 0x22 then "\\\"".toList
  else if n == 0x5C then "\\\\".toList
  else if n == 0x08 then "\\b".toList
  else if n == 0x0C then "\\f".toList
  else if n == 0x0A then "\\n".toList
  else if n == 0x0D then "\\r".toList
  else if n == 0x09 then "\\t".toList
  else if n < 0x20 then "\\u".toList ++ hex4Lower n
  else [c]

/-- The function `JSON.stringify` on a (well-formed) string. -/
def jsonStringify (s : Str) : Str := '"' :: (s.flatMap jsonEscape ++ ['"'])

/-! ## The platform's `URL` class

`new URL(input, base)` is a parameter of every function that calls it
(`URLCtor`), so that what is proved for all inputs holds whatever the platform's
parser answers. `whatwgURL` is a model of the WHATWG URL parser for the
concrete scenarios. -/

/-- The getters of a `URL` object that `proxy.js` reads. -/
structure URL where
  protocol : Str
  hostname : Str
  port : Str
  pathname : Str
  search : Str
  href : Str
  deriving Repr, DecidableEq

/-- The constructor `new URL(input)` (`base` is `none`) and
`new URL(input, base)`; `none` where it throws `TypeError`. -/
abbrev URLCtor := Str → Option Str → Option URL

/-- A parsed URL (the URL record of the URL Standard, credentials left out). -/
structure URLRecord where
  scheme : Str
  host : Option Str
  port : Option Nat
  /-- An opaque path is kept whole in a single segment. -/
  opaquePath : Bool
  path : List Str
  query : Option Str
  fragment : Option Str
  deriving Repr, DecidableEq

/-- The special schemes with their default ports (`file` is not modelled). -/
def defaultPort (scheme : Str) : Option Nat :=
  if scheme == "http".toList then some 80
  else if scheme == "https".toList then some 443
  else if scheme == "ws".toList then some 80
  else if scheme == "wss".toList then some 443
  else if scheme == "ftp".toList then some 21
  else none

/-- Whether a scheme is special. -/
def isSpecial (scheme : Str) : Bool := (defaultPort scheme).isSome

/-- A natural number in decimal. -/
def natToStr (n : Nat) : Str := (Nat.toDigits 10 n)

/-- Percent-encode the code points of `s` that are C0 controls, above `~`, or
in the given set. -/
def percentEncodeSet (inSet : Char → Bool) (s : Str) : Str :=
  s.flatMap (fun c =>
    if c.toNat < 0x20 || 0x7E < c.toNat || inSet c then (utf8Bytes c).flatMap percentByte
    else [c])

/-- The fragment percent-encode set beyond the C0 controls. -/
def inFragmentSet (c : Char) : Bool := " \"<>\x60".toList.contains c
/-- The query percent-encode set beyond the C0 controls. -/
def inQuerySet (c : Char) : Bool := " \"#<>".toList.contains c
/-- The special-query percent-encode set. -/
def inSpecialQuerySet (c : Char) : Bool := inQuerySet c || c == '\''
/-- The path percent-encode set. -/
def inPathSet (c : Char) : Bool := inQuerySet c || "?^\x60\x7b\x7d".toList.contains c

/-- The forbidden domain code points (those above the C0 controls). -/
def isForbiddenHostChar (c : Char) : Bool :=
  c.toNat ≤ 0x20 || c.toNat == 0x7F || "#/:<>?@[\\]^|%".toList.contains c

/-- Split at the first code point that satisfies `p`. -/
def splitAtFirst (p : Char → Bool) : Str → Str × Str
  | [] => ([], [])
  | c :: cs =>
    if p c then ([], c :: cs)
    else let r := splitAtFirst p cs; (c :: r.1, r.2)

/-- A single-dot path segment. -/
def isSingleDot (seg : Str) : Bool :=
  let l := seg.map asciiLower
  l == ".".toList || l == "%2e".toList

/-- A double-dot path segment. -/
def isDoubleDot (seg : Str) : Bool :=
  let l := seg.map asciiLower
  l == "..".toList || l == ".%2e".toList || l == "%2e.".toList || l == "%2e%2e".toList

/-- Drop the last segment of a path, if there is one. -/
def shorten (path : List Str) : List Str := path.dropLast

/-- The path state: append the segments of the input (already split at the
slashes) to `path`, resolving the dot segments. -/
def pathSegments : List Str → List Str → List Str
  | path, [] => path
  | path, [seg] =>
    if isDoubleDot seg then shorten path ++ [[]]
    else if isSingleDot seg then path ++ [[]]
    else path ++ [percentEncodeSet inPathSet seg]
  | path, seg :: more =>
    if isDoubleDot seg then pathSegments (shorten path) more
    else if isSingleDot seg then pathSegments path more
    else pathSegments (path ++ [percentEncodeSet inPathSet seg]) more

/-- Split a path text at `/` (and at `\` in a special URL). -/
def splitPath (special : Bool) : Str → List Str
  | [] => [[]]
  | c :: cs =>
    match splitPath special cs with
    | [] => [[]]
    | p :: ps => if c == '/' || (special && c == '\\') then [] :: p :: ps else (c :: p) :: ps

/-- Read a decimal number. -/
def parseDigits : Str → Option Nat
  | [] => some 0
  | cs => cs.foldl (fun acc c => acc.bind (fun a => (digitVal c).map (fun d => 10 * a + d))) (some 0)

/-- The tail of a URL text after its path: `?query` and `#fragment`. -/
def parseTail (special : Bool) (s : Str) : Option Str × Option Str :=
  let qf := splitAtFirst (fun c => c == '#') s
  let q : Option Str :=
    match qf.1 with
    | '?' :: q => some (percentEncodeSet (if special then inSpecialQuerySet else inQuerySet) q)
    | _ => none
  let f : Option Str :=
    match qf.2 with
    | '#' :: f => some (percentEncodeSet inFragmentSet f)
    | _ => none
  (q, f)

/-- The authority and what follows it: host (ASCII, lower-cased in a special
URL; no credentials, no IP literal, no percent-escape), optional port, then
path, query and fragment. `s` is the text after the slashes that introduce the
authority. -/
def parseAuthority (scheme : Str) (s : Str) : Option URLRecord :=
  let special := isSpecial scheme
  let ap := splitAtFirst (fun c => c == '/' || c == '?' || c == '#' || (special && c == '\\')) s
  let hp := splitAtFirst (fun c => c == ':') ap.1
  let host := if special then hp.1.map asciiLower else hp.1
  if host.any isForbiddenHostChar || host.any (fun c => 0x7F < c.toNat) then none
  else if special && host.isEmpty then none
  else
    let port : Option (Option Nat) :=
      match hp.2 with
      | [] => some none
      | _ :: ds =>
        if ds.isEmpty then some none
        else match parseDigits ds with
          | none => none
          | some n => if n > 65535 then none
                      else if defaultPort scheme == some n then some none else some (some n)
    match port with
    | none => none
    | some port =>
      let pt := splitAtFirst (fun c => c == '?' || c == '#') ap.2
      let path : List Str :=
        match pt.1 with
        | [] => if special then [[]] else []
        | _ :: p => pathSegments [] (splitPath special p)
      let qf := parseTail special pt.2
      some { scheme := scheme, host := some host, port := port, opaquePath := false,
             path := path, query := qf.1, fragment := qf.2 }

/-- Drop the leading slashes (and backslashes) of a special URL's authority. -/
def dropSlashes : Str → Str
  | [] => []
  | c :: cs => if c == '/' || c == '\\' then dropSlashes cs else c :: cs

/-- The scheme at the front of a text, lower-cased, and the text after its
colon. -/
def splitScheme (s : Str) : Option (Str × Str) :=
  match s with
  | [] => none
  | c :: _ =>
    if (asciiLower c).toNat < 97 || 122 < (asciiLower c).toNat then none
    else
      let r := splitAtFirst (fun c => !((asciiLower c).isAlphanum || c == '+' || c == '-' || c == '.')) s
      match r.2 with
      | ':' :: rest => some (r.1.map asciiLower, rest)
      | _ => none

/-- The relative states: a reference without a scheme (or with the base's
special scheme and no `//`) against a base without opaque path. -/
def parseRelative (base : URLRecord) (s : Str) : Option URLRecord :=
  let special := isSpecial base.scheme
  match s with
  | [] => some { base with fragment := none }
  | c :: cs =>
    if c == '/' || (special && c == '\\') then
      match cs with
      | d :: ds =>
        if d == '/' || (special && d == '\\') then
          parseAuthority base.scheme (if special then dropSlashes ds else ds)
        else
          let pt := splitAtFirst (fun c => c == '?' || c == '#') cs
          let qf := parseTail special pt.2
          some { base with path := pathSegments [] (splitPath special pt.1),
                           query := qf.1, fragment := qf.2 }
      | [] => some { base with path := [[]], query := none, fragment := none }
    else if c == '?' then
      let qf := parseTail special s
      some { base with query := qf.1, fragment := qf.2 }
    else if c == '#' then
      some { base with fragment := (parseTail special s).2 }
    else
      let pt := splitAtFirst (fun c => c == '?' || c == '#') s
      let qf := parseTail special pt.2
      some { base with path := pathSegments (shorten base.path) (splitPath special pt.1),
                       query := qf.1, fragment := qf.2 }

/-- Strip the leading and trailing C0 controls and spaces, then remove every
tab and newline. -/
def cleanInput (s : Str) : Str :=
  let strip : Str → Str := fun t => t.dropWhile (fun c => c.toNat ≤ 0x20)
  ((strip (strip s).reverse).reverse).filter (fun c => !(c == '\t' || c == '\n' || c == '\r'))

/-- The basic URL parser on an input and an optional base record. -/
def parseURL (input : Str) (base : Option URLRecord) : Option URLRecord :=
  let s := cleanInput input
  match splitScheme s with
  | some (scheme, rest) =>
    if scheme == "file".toList then none
    else if isSpecial scheme then
      match base with
      | some b =>
        if b.scheme == scheme && !(startsWith rest "//".toList) && !b.opaquePath then
          parseRelative b rest
        else parseAuthority scheme (dropSlashes rest)
      | none => parseAuthority scheme (dropSlashes rest)
    else
      match rest with
      | '/' :: '/' :: r => parseAuthority scheme r
      | '/' :: r =>
        let pt := splitAtFirst (fun c => c == '?' || c == '#') r
        let qf := parseTail false pt.2
        some { scheme := scheme, host := none, port := none, opaquePath := false,
               path := pathSegments [] (splitPath false pt.1), query := qf.1, fragment := qf.2 }
      | r =>
        let pt := splitAtFirst (fun c => c == '?' || c == '#') r
        let qf := parseTail false pt.2
        some { scheme := scheme, host := none, port := none, opaquePath := true,
               path := [percentEncodeSet (fun _ => false) pt.1], query := qf.1,
               fragment := qf.2 }
  | none =>
    match base with
    | none => none
    | some b =>
      if b.opaquePath then
        match s with
        | '#' :: _ => some { b with fragment := (parseTail false s).2 }
        | _ => none
      else parseRelative b s

/-- The path of a record as text. -/
def URLRecord.pathText (u : URLRecord) : Str :=
  if u.opaquePath then join [] u.path else u.path.flatMap (fun seg => '/' :: seg)

/-- The URL serialiser. -/
def URLRecord.serialize (u : URLRecord) : Str :=
  u.scheme ++ [':'] ++
  (match u.host with
   | some h => "//".toList ++ h ++
      (match u.port with
       | some p => ':' :: natToStr p
       | none => [])
   | none => []) ++
  u.pathText ++
  (match u.query with
   | some q => '?' :: q
   | none => []) ++
  (match u.fragment with
   | some f => '#' :: f
   | none => [])

/-- The getters of the `URL` object of a record. -/
def URLRecord.toURL (u : URLRecord) : URL :=
  { protocol := u.scheme ++ [':'],
    hostname := u.host.getD [],
    port := (u.port.map natToStr).getD [],
    pathname := u.pathText,
    search := (match u.query with
               | some (c :: q) => '?' :: c :: q
               | _ => []),
    href := u.serialize }

/-- A model of `new URL(input, base)` after the URL Standard, for `http` and
`https` URLs with an ASCII host name: scheme, host, port, path with dot
segments, query and fragment. Left out: credentials, IP literals, IDNA,
percent-escapes in host names and the `file` scheme (the model answers `none`
or keeps the text as it is there). -/
def whatwgURL : URLCtor := fun input base =>
  match base with
  | none => (parseURL input none).map URLRecord.toURL
  | some b =>
    match parseURL b none with
    | none => none
    | some rec => (parseURL input (some rec)).map URLRecord.toURL

/-! ## `proxy.js`: helpers -/

/-- The function `resolveUrl(base, relative)`; `none` where it throws (the
base does not parse and the reference starts with `//`). -/
def resolveUrl (U : URLCtor) (base relative : Str) : Option Str :=
  if relative.isEmpty then some base
  else
    let relative := trim relative
    if httpRe.test relative then some relative
    else if startsWith relative "//".toList then
      (U base none).map (fun u => u.protocol ++ relative)
    else
      match U relative (some base) with
      | some u => some u.href
      | none => some relative

/-- The function `proxyUrl(targetUrl, base, selfBase)`. -/
def proxyUrl (U : URLCtor) (targetUrl base selfBase : Str) : Str :=
  if targetUrl.isEmpty then targetUrl
  else
    let targetUrl := trim targetUrl
    if excludedRe.test targetUrl then targetUrl
    else
      match (if base.isEmpty then some targetUrl else resolveUrl U base targetUrl) with
      | none => targetUrl
      | some resolved =>
        if !httpRe.test resolved then targetUrl
        else selfBase ++ "/proxy?url=".toList ++ encodeURIComponent resolved

/-! ## `proxy.js`: stylesheet and script rewriting -/

/-- The function `rewriteCss(css, baseUrl, selfBase)`. -/
def rewriteCss (U : URLCtor) (css baseUrl selfBase : Str) : Str :=
  let px := fun u => proxyUrl U u baseUrl selfBase
  let css := replaceAll cssUrlRe (fun m =>
    let u := capText m 1
    if dataBlobRe.test u then m.matched
    else "url(".toList ++ px u ++ ")".toList) css
  replaceAll cssImportRe (fun m => "@import \"".toList ++ px (capText m 1) ++ "\"".toList) css

/-- The function `rewriteJs(js, baseUrl, selfBase)`. -/
def rewriteJs (U : URLCtor) (js baseUrl selfBase : Str) : Str :=
  replaceAll jsUrlRe (fun m =>
    let q := capText m 1
    let u := capText m 2
    if includes u "fonts.googleapis".toList || includes u "fonts.gstatic".toList ||
        endsWith u ".woff2".toList || endsWith u ".woff".toList then m.matched
    else q ++ proxyUrl U u baseUrl selfBase ++ q) js

/-! ## `proxy.js`: the injected shim and the navigation bar -/

/-- The function `buildShim(baseUrl, selfBase)`. -/
def buildShim (baseUrl selfBase : Str) : Str :=
  List.flatten [
    "<script>\n".toList,
    "(function()\x7b\n".toList,
    "  var PROXY=".toList,
    jsonStringify (selfBase ++ "/proxy".toList),
    ";\n".toList,
    "  var BASE=".toList,
    jsonStringify baseUrl,
    ";\n".toList,
    "  function wp(u)\x7b\n".toList,
    "    if(!u) return u;\n".toList,
    "    u=String(u);\n".toList,
    "    if(/^(blob:|data:|javascript:|mailto:|tel:|#)/.test(u)) return u;\n".toList,
    "    try\x7b\n".toList,
    "      var abs=new URL(u,BASE).href;\n".toList,
    "      if(abs.startsWith(location.origin) && abs.includes('/proxy')) return u;\n".toList,
    "      if(abs.startsWith(location.origin)) return u;\n".toList,
    "      return PROXY+'?url='+encodeURIComponent(abs);\n".toList,
    "    \x7dcatch(e)\x7breturn u;\x7d\n".toList,
    "  \x7d\n".toList,
    "  var _fetch=window.fetch;\n".toList,
    "  window.fetch=function(input,init)\x7b\n".toList,
    "    try\x7b\n".toList,
    "      if(typeof input==='string') input=wp(input);\n".toList,
    "      else if(input&&input.url) input=new Request(wp(input.url),input);\n".toList,
    "    \x7dcatch(e)\x7b\x7d\n".toList,
    "    return _fetch.call(this,input,init);\n".toList,
    "  \x7d;\n".toList,
    "  var _open=XMLHttpRequest.prototype.open;\n".toList,
    "  XMLHttpRequest.prototype.open=function(m,u)\x7b\n".toList,
    "    try\x7barguments[1]=wp(u);\x7dcatch(e)\x7b\x7d\n".toList,
    "    return _open.apply(this,arguments);\n".toList,
    "  \x7d;\n".toList,
    "  try\x7b\n".toList,
    "    window.location.assign=function(u)\x7blocation.href=wp(u);\x7d;\n".toList,
    "    window.location.replace=function(u)\x7blocation.replace(wp(u));\x7d;\n".toList,
    "  \x7dcatch(e)\x7b\x7d\n".toList,
    "  document.addEventListener('DOMContentLoaded',function()\x7b\n".toList,
    "    document.querySelectorAll('form').forEach(function(f)\x7b\n".toList,
    "      var a=f.getAttribute('action');\n".toList,
    "      if(a&&!/^(javascript:|#)/.test(a)) f.setAttribute('action',wp(a));\n".toList,
    "    \x7d);\n".toList,
    "    document.querySelectorAll('a[href]').forEach(function(a)\x7b\n".toList,
    "      var h=a.getAttribute('href');\n".toList,
    "      if(h&&/^https?:\\/\\//i.test(h)&&!h.includes(location.hostname))\n".toList,
    "        a.setAttribute('href',wp(h));\n".toList,
    "    \x7d);\n".toList,
    "  \x7d);\n".toList,
    "\x7d)();\n".toList,
    "</script>".toList]

/-- The function `buildNavbar(baseUrl, selfBase)`. -/
def buildNavbar (baseUrl selfBase : Str) : Str :=
  let escaped := replaceAllStr dquoteRe "&quot;".toList baseUrl
  List.flatten [
    "<div id=\"__pxbar\" style=\"position:fixed;top:0;left:0;right:0;z-index:2147483647;".toList,
    "background:#0d0d0f;border-bottom:1px solid #2a2a30;padding:8px 14px;display:flex;".toList,
    "align-items:center;gap:10px;font-family:'JetBrains Mono',monospace;font-size:12px;".toList,
    "box-shadow:0 2px 20px rgba(0,0,0,.5);\">\n".toList,
    "  <a href=\"".toList,
    selfBase,
    "\" style=\"color:#00f5a0;text-decoration:none;font-weight:700;font-size:15px;".toList,
    "flex-shrink:0\">\u2b21</a>\n".toList,
    "  <input id=\"__pxinput\" value=\"".toList,
    escaped,
    "\" style=\"flex:1;min-width:0;background:#141417;border:1px solid #2a2a30;".toList,
    "border-radius:8px;color:#e8e8f0;padding:5px 10px;font-family:inherit;font-size:12px;".toList,
    "outline:none;\" autocomplete=\"off\"/>\n".toList,
    "  <button onclick=\"(function()\x7bvar v=document.getElementById('__pxinput').value.trim".toList,
    "();if(!v)return;if(!/^https?:\\/\\//i.test(v))v='https://'+v;location.href='".toList,
    selfBase,
    "/proxy?url='+encodeURIComponent(v);".toList,
    "\x7d)()\" style=\"background:linear-gradient(135deg,#00f5a0,#00b4d8);border:none;".toList,
    "border-radius:8px;color:#000;cursor:pointer;font-weight:700;padding:5px 14px;".toList,
    "font-size:12px;white-space:nowrap;flex-shrink:0;\">Go</button>\n".toList,
    "</div>\n".toList,
    "<div style=\"height:44px\"></div>".toList]

/-! ## `proxy.js`: markup rewriting -/

/-- The base handling at the head of `rewriteHtml`: the base URL after a
`<base href>` declaration, if the document has one; `none` where `resolveUrl`
throws. -/
def updateBase (U : URLCtor) (html baseUrl : Str) : Option Str :=
  match baseHrefRe.exec html with
  | some m => resolveUrl U baseUrl (capText m 1)
  | none => some baseUrl

/-- The removal of the base tags: `html.replace(/<base[^>]+>/gi, '')`. -/
def stripBaseTags (html : Str) : Str := replaceAllStr baseTagRe [] html

/-- One round of the URL attribute loop. -/
def rewriteAttr (U : URLCtor) (baseUrl selfBase : Str) (html attr : Str) : Str :=
  replaceAll (attrRe attr) (fun m =>
    let a := capText m 1
    let q := capText m 2
    let u := capText m 3
    if excludedRe.test u then m.matched
    else a ++ "=".toList ++ q ++ proxyUrl U u baseUrl selfBase ++ q) html

/-- The URL attribute loop over `urlAttrs`. -/
def rewriteAttrs (U : URLCtor) (baseUrl selfBase html : Str) : Str :=
  urlAttrs.foldl (rewriteAttr U baseUrl selfBase) html

/-- One candidate of a `srcset` list. -/
def rewriteSrcsetPart (U : URLCtor) (baseUrl selfBase part : Str) : Str :=
  match splitRe spacesRe (trim part) with
  | [] => []
  | p :: ps =>
    if !p.isEmpty && !dataBlobRe.test p then join " ".toList (proxyUrl U p baseUrl selfBase :: ps)
    else join " ".toList (p :: ps)

/-- The `srcset` pass. -/
def rewriteSrcset (U : URLCtor) (baseUrl selfBase html : Str) : Str :=
  replaceAll srcsetRe (fun m =>
    let q := capText m 1
    let parts := (splitOn ',' (capText m 2)).map (rewriteSrcsetPart U baseUrl selfBase)
    "srcset=".toList ++ q ++ join ", ".toList parts ++ q) html

/-- The `<style>` block pass. -/
def rewriteStyleBlocks (U : URLCtor) (baseUrl selfBase html : Str) : Str :=
  replaceAll styleBlockRe (fun m =>
    "<style".toList ++ capText m 1 ++ ">".toList ++
      rewriteCss U (capText m 2) baseUrl selfBase ++ "</style>".toList) html

/-- The `style="..."` attribute pass. -/
def rewriteStyleAttrs (U : URLCtor) (baseUrl selfBase html : Str) : Str :=
  replaceAll styleAttrRe (fun m =>
    let q := capText m 1
    let rewritten := replaceAll cssUrlRe (fun m2 =>
      "url(".toList ++ proxyUrl U (capText m2 1) baseUrl selfBase ++ ")".toList) (capText m 2)
    "style=".toList ++ q ++ rewritten ++ q) html

/-- The `<script>` block pass. -/
def rewriteScriptBlocks (U : URLCtor) (baseUrl selfBase html : Str) : Str :=
  replaceAll scriptBlockRe (fun m =>
    if scriptTypeRe.test (capText m 1) then m.matched
    else "<script".toList ++ capText m 1 ++ ">".toList ++
      rewriteJs U (capText m 2) baseUrl selfBase ++ "</script>".toList) html

/-- The shim injection: after the opening head tag, or in front. -/
def injectShim (baseUrl selfBase html : Str) : Str :=
  let shim := buildShim baseUrl selfBase
  if headRe.test html then replaceFirstStr headTagRe ("$1".toList ++ shim) html
  else shim ++ html

/-- The navigation bar injection: after the opening body tag, or in front. -/
def injectNavbar (baseUrl selfBase html : Str) : Str :=
  let navbar := buildNavbar baseUrl selfBase
  if bodyRe.test html then replaceFirstStr bodyTagRe ("$1".toList ++ navbar) html
  else navbar ++ html

/-- Everything `rewriteHtml` does after the base handling, with the base URL
in force (the closure `px` reads the variable `baseUrl` at the time of each call,
after the assignment of the base handling). -/
def rewritePasses (U : URLCtor) (html baseUrl selfBase : Str) : Str :=
  let html := rewriteAttrs U baseUrl selfBase html
  let html := rewriteSrcset U baseUrl selfBase html
  let html := rewriteStyleBlocks U baseUrl selfBase html
  let html := rewriteStyleAttrs U baseUrl selfBase html
  let html := rewriteScriptBlocks U baseUrl selfBase html
  let html := injectShim baseUrl selfBase html
  injectNavbar baseUrl selfBase html

/-- The function `rewriteHtml(html, baseUrl, selfBase)`; `none` where it
throws. -/
def rewriteHtml (U : URLCtor) (html baseUrl selfBase : Str) : Option Str :=
  match updateBase U html baseUrl with
  | none => none
  | some baseUrl => some (rewritePasses U (stripBaseTags html) baseUrl selfBase)

/-! ## Buffers -/

/-- The state of the UTF-8 decoder between two bytes: the code point under
construction, the number of continuation bytes still needed, and the bounds on
the next byte. -/
structure Utf8State where
  cp : Nat
  needed : Nat
  lower : Nat
  upper : Nat

/-- The decoder's state between two code points. -/
def Utf8State.init : Utf8State := ⟨0, 0, 0x80, 0xBF⟩

/-- The replacement character U+FFFD. -/
def replacementChar : Char := Char.ofNat 0xFFFD

/-- The decoder's step on a byte that starts a sequence: what it emits and the
state it moves to. -/
def utf8Lead (b : Nat) : Str × Utf8State :=
  if b < 0x80 then ([Char.ofNat b], Utf8State.init)
  else if 0xC2 ≤ b ∧ b ≤ 0xDF then ([], ⟨b - 0xC0, 1, 0x80, 0xBF⟩)
  else if 0xE0 ≤ b ∧ b ≤ 0xEF then
    ([], ⟨b - 0xE0, 2, if b = 0xE0 then 0xA0 else 0x80, if b = 0xED then 0x9F else 0xBF⟩)
  else if 0xF0 ≤ b ∧ b ≤ 0xF4 then
    ([], ⟨b - 0xF0, 3, if b = 0xF0 then 0x90 else 0x80, if b = 0xF4 then 0x8F else 0xBF⟩)
  else ([replacementChar], Utf8State.init)

/-- The UTF-8 decoder with replacement (Encoding Standard): every maximal
ill-formed part of the input becomes U+FFFD. -/
def utf8DecodeFrom : Utf8State → List Nat → Str
  | st, [] => if st.needed = 0 then [] else [replacementChar]
  | st, b :: bs =>
    if st.needed = 0 then
      let r := utf8Lead b
      r.1 ++ utf8DecodeFrom r.2 bs
    else if b < st.lower ∨ st.upper < b then
      let r := utf8Lead b
      replacementChar :: (r.1 ++ utf8DecodeFrom r.2 bs)
    else if st.needed = 1 then
      Char.ofNat (st.cp * 64 + (b - 0x80)) :: utf8DecodeFrom Utf8State.init bs
    else utf8DecodeFrom ⟨st.cp * 64 + (b - 0x80), st.needed - 1, 0x80, 0xBF⟩ bs

/-- The method `Buffer.prototype.toString('utf8')`. -/
def bufferToString (buf : List Nat) : Str := utf8DecodeFrom Utf8State.init buf

/-! ## `proxy.js`: the origin fetcher -/

/-- Header fields, names as the platform gives them. -/
abbrev Headers := List (Str × Str)

/-- The value of a header field, `none` for `undefined`. -/
def Headers.get (h : Headers) (name : Str) : Option Str :=
  (h.find? (fun p => p.1 == name)).map (fun p => p.2)

/-- The options `fetchUrl` hands to `lib.request`, and the body it writes. -/
structure OutRequest where
  secure : Bool
  hostname : Str
  port : Str
  path : Str
  method : Str
  headers : Headers
  body : Option Str
  deriving Repr, DecidableEq

/-- A response of the origin: status, headers and the bytes of its body. -/
structure IncomingMessage where
  statusCode : Nat
  headers : Headers
  raw : List Nat
  deriving Repr, DecidableEq

/-- What a request comes to: a response, or an error (a network failure or the
timeout) with its message. -/
inductive NetResult where
  | response (res : IncomingMessage)
  | failure (message : Str)
  deriving Repr, DecidableEq

/-- The platform under the fetcher: the URL parser, the three `zlib`
decompressors (`none` where they report an error) and the network. -/
structure Env where
  newURL : URLCtor
  gunzip : List Nat → Option (List Nat)
  inflate : List Nat → Option (List Nat)
  brotliDecompress : List Nat → Option (List Nat)
  request : OutRequest → NetResult

/-- What `fetchUrl` resolves to. -/
structure FetchResult where
  body : Str
  headers : Headers
  status : Nat
  deriving Repr, DecidableEq

/-- The request headers of every outbound request. -/
def fixedHeaders : Headers :=
  [("User-Agent".toList,
    "Mozilla/5.0 (Windows NT 10.0; Win64; x64) AppleWebKit/537.36 (KHTML, like Gecko) Chrome/122.0.0.0 Safari/537.36".toList),
   ("Accept".toList,
    "text/html,application/xhtml+xml,application/xml;q=0.9,image/webp,*/*;q=0.8".toList),
   ("Accept-Language".toList, "en-US,en;q=0.9".toList),
   ("Accept-Encoding".toList, "gzip, deflate, br".toList),
   ("Connection".toList, "close".toList)]

/-- The outbound request for a parsed target, a method and a body (`none`
for `null` and `undefined`; an empty body counts as none). -/
def mkRequest (parsed : URL) (method : Str) (body : Option Str) : OutRequest :=
  let isHttps := parsed.protocol == "https:".toList
  let body := body.filter (fun b => !b.isEmpty)
  { secure := isHttps,
    hostname := parsed.hostname,
    port := if parsed.port.isEmpty then (if isHttps then "443".toList else "80".toList)
            else parsed.port,
    path := parsed.pathname ++ parsed.search,
    method := if method.isEmpty then "GET".toList else method,
    headers := fixedHeaders ++
      (match body with
       | some b => [("Content-Type".toList, "application/x-www-form-urlencoded".toList),
                    ("Content-Length".toList, natToStr (utf8Encode b).length)]
       | none => []),
    body := body }

/-- The redirect statuses. -/
def isRedirectStatus (status : Nat) : Bool := [301, 302, 303, 307, 308].contains status

/-- The target of a redirect response: its `location` header when the status
is a redirect status and the header is set and not empty. -/
def redirectLocation (res : IncomingMessage) : Option Str :=
  if isRedirectStatus res.statusCode then
    (res.headers.get "location".toList).filter (fun l => !l.isEmpty)
  else none

/-- The end of a terminal response: decompress after `content-encoding`,
decode as text; a failed decompression falls back to the raw bytes. -/
def finishResponse (E : Env) (res : IncomingMessage) : FetchResult :=
  let enc := res.headers.get "content-encoding".toList
  let decompress : Option (List Nat → Option (List Nat)) :=
    if enc == some "gzip".toList then some E.gunzip
    else if enc == some "deflate".toList then some E.inflate
    else if enc == some "br".toList then some E.brotliDecompress
    else none
  let body : Str :=
    match decompress with
    | some d =>
      match d res.raw with
      | none => bufferToString res.raw
      | some buf => bufferToString buf
    | none => bufferToString res.raw
  { body := body, headers := res.headers, status := res.statusCode }

/-- A run of `fetchUrl`: the requests it issued, in order, and how its promise
settled (`none`: the fuel ran out before it did). -/
structure FetchRun where
  sent : List OutRequest
  settled : Option (Except Str FetchResult)

/-- The function `fetchUrl(targetUrl, method, body)`. The first argument
bounds the number of requests of the run. A target that does not parse rejects
the promise (`new URL` throws inside the executor); the branch in which
`resolveUrl` throws on a redirect is never taken, since the target it gets as
base has parsed (`resolveUrl_isSome`). -/
def fetchUrl (E : Env) : Nat → Str → Str → Option Str → FetchRun
  | 0, _, _, _ => ⟨[], none⟩
  | fuel + 1, targetUrl, method, body =>
    match E.newURL targetUrl none with
    | none => ⟨[], some (.error "Invalid URL".toList)⟩
    | some parsed =>
      let req := mkRequest parsed method body
      match E.request req with
      | .failure message => ⟨[req], some (.error message)⟩
      | .response res =>
        match redirectLocation res with
        | some location =>
          match resolveUrl E.newURL targetUrl location with
          | none => ⟨[req], some (.error "Invalid URL".toList)⟩
          | some next =>
            let run := fetchUrl E fuel next "GET".toList none
            ⟨req :: run.sent, run.settled⟩
        | none => ⟨[req], some (.ok (finishResponse E res))⟩

/-! ## `proxy.js`: the request handler -/

/-- An inbound request as the handler reads it: the method, the `host` header,
the `url` parameter of the query string (`parsed.query.url`, decoded by the
platform; `none` when absent) and the text of the body. -/
structure Request where
  method : Str
  host : Str
  queryUrl : Option Str
  body : Str

/-- What the handler writes: status, headers and the bytes of the body. -/
structure Response where
  status : Nat
  headers : Headers
  body : List Nat
  deriving Repr, DecidableEq

/-- The error page of the handler. -/
def errorPage (message : Str) : Str :=
  List.flatten [
    "<h2 style=\"font-family:monospace;padding:40px;color:#ff4d6d\">\n".toList,
    "      \u26a0 Proxy error: ".toList,
    message,
    "<br/><br/>\n".toList,
    "      <a href=\"/\" style=\"color:#00f5a0\">\u2190 Go back</a>\n".toList,
    "    </h2>".toList]

/-- The method `String.prototype.toLowerCase` on ASCII letters (the letters
the content-type tests look for are ASCII). -/
def toLowerCase (s : Str) : Str := s.map asciiLower

/-- The classification of a content type as text: it names `html`, `css`,
`javascript`, `ecmascript`, `json` or `text`. -/
def isTextType (ct : Str) : Bool :=
  includes ct "html".toList || includes ct "css".toList ||
  (includes ct "javascript".toList || includes ct "ecmascript".toList) ||
  includes ct "json".toList || includes ct "text".toList

/-- The response of the handler to a fetched resource. `none`: the rewriter
threw after the status line was written. -/
def dispatch (U : URLCtor) (result : FetchResult) (fullUrl selfBase : Str) : Option Response :=
  let ct := toLowerCase ((result.headers.get "content-type".toList).getD [])
  let isHtml := includes ct "html".toList
  let isCss := includes ct "css".toList
  let isJs := includes ct "javascript".toList || includes ct "ecmascript".toList
  let isText := isHtml || isCss || isJs || includes ct "json".toList || includes ct "text".toList
  let common : Headers :=
    [("Access-Control-Allow-Origin".toList, "*".toList), ("X-Frame-Options".toList, [])]
  if !isText then
    let ctOut := match result.headers.get "content-type".toList with
      | some c => if c.isEmpty then "application/octet-stream".toList else c
      | none => "application/octet-stream".toList
    some { status := result.status,
           headers := common ++ [("Content-Type".toList, ctOut),
                                 ("Cache-Control".toList, "public, max-age=86400".toList)],
           body := utf8Encode result.body }
  else if isCss then
    some { status := result.status,
           headers := common ++ [("Content-Type".toList, "text/css; charset=utf-8".toList)],
           body := utf8Encode (rewriteCss U result.body fullUrl selfBase) }
  else if isJs then
    some { status := result.status,
           headers := common ++
             [("Content-Type".toList, "application/javascript; charset=utf-8".toList)],
           body := utf8Encode (rewriteJs U result.body fullUrl selfBase) }
  else
    match rewriteHtml U result.body fullUrl selfBase with
    | none => none
    | some html =>
      some { status := result.status,
             headers := common ++ [("Content-Type".toList, "text/html; charset=utf-8".toList)],
             body := utf8Encode html }

/-- The exported handler. The outer `none`: the fuel of the fetch ran out; the
inner `none`: the handler's promise is rejected. -/
def handler (E : Env) (fuel : Nat) (req : Request) : Option (Option Response) :=
  let targetUrl := trim (req.queryUrl.getD [])
  let selfBase := "https://".toList ++ req.host
  if targetUrl.isEmpty then
    some (some { status := 302, headers := [("Location".toList, "/".toList)], body := [] })
  else
    let fullUrl := if httpRe.test targetUrl then targetUrl else "https://".toList ++ targetUrl
    let body := if req.method == "POST".toList then req.body else []
    match (fetchUrl E fuel fullUrl req.method (if body.isEmpty then none else some body)).settled with
    | none => none
    | some (.error message) =>
      some (some { status := 500, headers := [("Content-Type".toList, "text/html".toList)],
                   body := utf8Encode (errorPage message) })
    | some (.ok result) => some (dispatch E.newURL result fullUrl selfBase)

/-! ## Notions of the specification and concrete scenarios -/

/-- Whether `s` starts with `p` up to the case of ASCII letters. -/
def startsWithCI (s p : Str) : Bool := (eatLiteral true p s).isSome

/-- The excluded schemes of the specification's Scheme Classifier. -/
def excludedSchemes : List Str :=
  ["javascript:".toList, "mailto:".toList, "tel:".toList, "data:".toList, "blob:".toList,
   "#".toList]

/-- The Scheme Classifier in the specification's words: a reference is
excluded when it starts, up to case, with one of the excluded schemes. The
source tests the same with `excludedRe` (see `excludedRe_test`). -/
def excludedBySpec (r : Str) : Bool := excludedSchemes.any (startsWithCI r)

/-- The reserved characters of a URI (ECMA-262 `uriReserved`) and `#`. -/
def uriReserved : Str := ";/?:@&=+$,#".toList

/-- The units of the percent-encoding of a string: a literal for an unescaped
character, the UTF-8 bytes for any other. -/
def encodedToks (s : Str) : List Tok :=
  s.flatMap (fun c => if isUriUnescaped c then [Tok.lit c] else (utf8Bytes c).map Tok.byte)

/-- The value `resolved` that `proxyUrl` hands to the encoder for a reference:
`base ? resolveUrl(base, targetUrl) : targetUrl` on the trimmed reference. -/
def resolvedTarget (U : URLCtor) (r base : Str) : Option Str :=
  if base.isEmpty then some (trim r) else resolveUrl U base (trim r)

/-- The condition under which `proxyUrl` reaches its encoding branch: the
reference is not empty, its trimmed text is not excluded, and the resolved
value is an `http(s)` URL. -/
def producesProxied (U : URLCtor) (r base : Str) : Bool :=
  !r.isEmpty && !excludedRe.test (trim r) &&
    (match resolvedTarget U r base with
     | some resolved => httpRe.test resolved
     | none => false)

/-- A chain of redirects as the fetcher meets it: `hops` lists each redirect
response with its location; the request for `target` is answered by the first
hop (or, when there is none, by the terminal response `final`, which is no
redirect), and the chain goes on from the resolved location with `GET` and no
body. -/
def followsChain (E : Env) :
    List (IncomingMessage × Str) → Str → Str → Option Str → IncomingMessage → Bool
  | [], target, method, body, final =>
    match E.newURL target none with
    | none => false
    | some parsed =>
      E.request (mkRequest parsed method body) == NetResult.response final &&
        (redirectLocation final).isNone
  | (res, location) :: rest, target, method, body, final =>
    match E.newURL target none with
    | none => false
    | some parsed =>
      E.request (mkRequest parsed method body) == NetResult.response res &&
        (redirectLocation res == some location) &&
        (match resolveUrl E.newURL target location with
         | none => false
         | some next => followsChain E rest next "GET".toList none final)

/-- The requests of a redirect chain: the one for `target` with the caller's
method and body, then one per hop for the resolved location, with `GET` and no
body. -/
def chainRequests (E : Env) : List (IncomingMessage × Str) → Str → Str → Option Str →
    List OutRequest
  | [], target, method, body =>
    match E.newURL target none with
    | none => []
    | some parsed => [mkRequest parsed method body]
  | (_, location) :: rest, target, method, body =>
    match E.newURL target none with
    | none => []
    | some parsed =>
      mkRequest parsed method body ::
        (match resolveUrl E.newURL target location with
         | none => []
         | some next => chainRequests E rest next "GET".toList none)

/-- A platform without compression whose network is the given function. -/
def plainEnv (net : OutRequest → NetResult) : Env where
  newURL := whatwgURL
  gunzip := fun _ => none
  inflate := fun _ => none
  brotliDecompress := fun _ => none
  request := net

/-- An origin that serves four bytes of a PNG header, not valid UTF-8, as
`image/png` at `a.com/i.png`. -/
def pngOrigin : Env :=
  plainEnv (fun r =>
    if r.hostname == "a.com".toList && r.path == "/i.png".toList then
      .response { statusCode := 200,
                  headers := [("content-type".toList, "image/png".toList)],
                  raw := [0x89, 0x50, 0x4E, 0x47] }
    else .failure "ENOTFOUND".toList)

/-- The redirect answered by `redirectOrigin` at `/x/y`. -/
def movedResponse : IncomingMessage :=
  { statusCode := 302, headers := [("location".toList, "../z.png".toList)], raw := [] }

/-- The terminal response of `redirectOrigin` at `/z.png`. -/
def landedResponse : IncomingMessage :=
  { statusCode := 200, headers := [("content-type".toList, "text/plain".toList)],
    raw := [111, 107] }

/-- An origin `a.com` that redirects `/x/y` to the relative location
`../z.png` with status 302 and serves `/z.png` when asked with `GET` and no
body. -/
def redirectOrigin : Env :=
  plainEnv (fun r =>
    if r.path == "/x/y".toList then .response movedResponse
    else if r.path == "/z.png".toList && r.method == "GET".toList && r.body == none then
      .response landedResponse
    else .failure "ECONNREFUSED".toList)

/-! ## Notions used to reason about the matcher -/

/-- Whether `p` occurs in `s`, up to the case of ASCII letters. -/
def includesCI : Str → Str → Bool
  | [], p => startsWithCI [] p
  | c :: cs, p => startsWithCI (c :: cs) p || includesCI cs p

/-- A code point that is no ASCII letter: as a pattern character it matches
itself only, with or without the `i` flag. -/
def isSpecialChar (a : Char) : Bool :=
  !((65 ≤ a.toNat && a.toNat ≤ 90) || (97 ≤ a.toNat && a.toNat ≤ 122))

/-- Whether a character class (negated when `neg` is set) takes the code
point `b`: the test of `matchRe` on `Re.cls`. -/
def accepts (ci neg : Bool) (items : List ClassItem) (b : Char) : Bool :=
  (items.any (ClassItem.has ci b)) != neg

/-- The text is at its end or goes on with a code point that the class does
not take: a repetition of the class stops here. -/
def stopsAt (ci neg : Bool) (items : List ClassItem) : Str → Bool
  | [] => true
  | c :: _ => !accepts ci neg items c

/-- The end of `baseHrefRe` after the href value: `["'][^>]*>`. -/
def afterValue : Re := .seq quoteCls (.seq (Re.star notGtCls) (.ch '>'))

/-- The part of `baseHrefRe` after `href`: `\s*=\s*["']([^"']+)["'][^>]*>`. -/
def afterHref : Re :=
  .seq (Re.star Re.ws) (.seq (.ch '=') (.seq (Re.star Re.ws)
    (.seq quoteCls (.seq (.group 1 (Re.plus notQuoteCls)) afterValue))))

/-- The part of `baseHrefRe` after `<base[^>]+`. -/
def afterBase : Re := .seq (Re.str "href".toList) afterHref

/-- The base declaration `<base href="B">` as text. -/
def baseTag (B : Str) : Str := "<base href=\"".toList ++ B ++ "\">".toList

/-- An href value that is not empty and holds no quote and no `>`. -/
def plainValue (B : Str) : Bool :=
  !B.isEmpty && B.all (fun c => !("\"'>".toList.contains c))

/-- A pattern with no anchor and no lookahead: whether it matches does not
depend on the index at which the text starts. -/
def Re.plain : Re → Bool
  | .seq a b => a.plain && b.plain
  | .alt a b => a.plain && b.plain
  | .rep _ _ _ r => r.plain
  | .group _ r => r.plain
  | .notAhead _ => false
  | .bol => false
  | _ => true

/-- The state with its index moved by `k`. -/
def MState.shift (k : Nat) (x : MState) : MState := { x with pos := x.pos + k }

/-- The state `y` lies ahead of `x` in the same text: what `y` has ahead is at
most what `x` has, and the index moved by the difference. -/
def MState.ahead (x y : MState) : Prop :=
  y.rest.length ≤ x.rest.length ∧ y.pos + y.rest.length = x.pos + x.rest.length

/-! # Theorems -/

set_option maxRecDepth 100000

/-! ## Lemmas: trimming -/

theorem canonicalize_of_isWhiteSpace (c : Char) (h : isWhiteSpace c = true) :
    canonicalize c = c := by
  unfold canonicalize
  split
  · rename_i hc
    exfalso
    simp [isWhiteSpace] at h
    omega
  · rfl

theorem trimEnd_cons_of_not_ws (c : Char) (cs : Str) (h : isWhiteSpace c = false) :
    trimEnd (c :: cs) = c :: trimEnd cs := by
  simp only [trimEnd]
  cases hcs : trimEnd cs with
  | nil => simp [h]
  | cons a r => rfl

theorem trimStart_cons_of_not_ws (c : Char) (cs : Str) (h : isWhiteSpace c = false) :
    trimStart (c :: cs) = c :: cs := by
  simp [trimStart, h]

theorem trimEnd_idem (s : Str) : trimEnd (trimEnd s) = trimEnd s := by
  induction s with
  | nil => rfl
  | cons c cs ih =>
    simp only [trimEnd]
    cases hcs : trimEnd cs with
    | nil =>
      by_cases hc : isWhiteSpace c = true
      · simp [hc, trimEnd]
      · simp [hc, trimEnd]
    | cons a r =>
      rw [hcs] at ih
      show trimEnd (c :: a :: r) = c :: a :: r
      have : trimEnd (c :: a :: r) = (match trimEnd (a :: r) with
          | [] => if isWhiteSpace c = true then [] else [c]
          | t => c :: t) := rfl
      rw [this, ih]

theorem trimStart_head (s : Str) :
    trimStart s = [] ∨ ∃ c cs, trimStart s = c :: cs ∧ isWhiteSpace c = false := by
  induction s with
  | nil => left; rfl
  | cons c cs ih =>
    by_cases hc : isWhiteSpace c = true
    · simp only [trimStart, hc, if_true]; exact ih
    · right; exact ⟨c, cs, by simp [trimStart, hc], by simpa using hc⟩

theorem trimEnd_head (c : Char) (cs : Str) :
    trimEnd (c :: cs) = [] ∨ ∃ r, trimEnd (c :: cs) = c :: r := by
  simp only [trimEnd]
  cases hcs : trimEnd cs with
  | nil =>
    by_cases hc : isWhiteSpace c = true
    · left; simp [hc]
    · right; exact ⟨[], by simp [hc]⟩
  | cons a r => right; exact ⟨a :: r, rfl⟩

theorem trim_idem (s : Str) : trim (trim s) = trim s := by
  unfold trim
  rcases trimStart_head s with h | ⟨c, cs, h, hc⟩
  · rw [h]; rfl
  · rw [h]
    rcases trimEnd_head c cs with h2 | ⟨r, h2⟩
    · rw [h2]; rfl
    · rw [h2, trimStart_cons_of_not_ws c r hc, ← h2, trimEnd_idem]

/-! ## Lemmas: regular expressions -/

theorem matchRe_str (ci : Bool) (p : Str) :
    ∀ (c : MState → Option MState) (x : MState),
    matchRe ci (Re.str p) c x =
      match eatLiteral ci p x.rest with
      | none => none
      | some r => c { pos := x.pos + p.length, rest := r, caps := x.caps } := by
  induction p with
  | nil => intro c x; simp [Re.str, matchRe, eatLiteral]
  | cons a ps ih =>
    intro c x
    cases ps with
    | nil =>
      simp only [Re.str, matchRe]
      cases hx : x.rest with
      | nil => simp [eatLiteral]
      | cons b bs =>
        simp only [eatLiteral]
        by_cases h : sameChar ci a b = true <;> simp [h]
    | cons a2 ps2 =>
      simp only [Re.str, matchRe]
      cases hx : x.rest with
      | nil => simp [eatLiteral]
      | cons b bs =>
        by_cases h : sameChar ci a b = true
        · simp only [eatLiteral, h, if_true] 
          rw [ih]
          simp only [List.length_cons]
          cases eatLiteral ci (a2 :: ps2) bs with
          | none => rfl
          | some r => simp only; congr 2; omega
        · simp [eatLiteral, h]

theorem matchAt_bol (ci : Bool) (r : Re) (before rest : Str) (h : before ≠ []) :
    matchAt ⟨.seq .bol r, ci⟩ before rest = none := by
  have hl : before.length ≠ 0 := by
    cases before with
    | nil => exact absurd rfl h
    | cons a b => simp
  simp [matchAt, matchRe, hl]

theorem execFrom_bol (ci : Bool) (r : Re) (rest : Str) :
    ∀ before : Str, before ≠ [] → execFrom ⟨.seq .bol r, ci⟩ before rest = none := by
  induction rest with
  | nil => intro before h; simp [execFrom, matchAt_bol ci r before [] h]
  | cons c cs ih =>
    intro before h
    simp only [execFrom, matchAt_bol ci r before (c :: cs) h]
    exact ih (c :: before) (by simp)

theorem test_bol (ci : Bool) (r : Re) (s : Str) :
    RegExp.test ⟨.seq .bol r, ci⟩ s =
      (matchRe ci r some { pos := 0, rest := s, caps := [] }).isSome := by
  have key : (matchAt ⟨.seq .bol r, ci⟩ [] s).isSome =
      (matchRe ci r some { pos := 0, rest := s, caps := [] }).isSome := by
    simp only [matchAt, matchRe, List.length_nil, beq_self_eq_true, if_true]
    cases matchRe ci r some { pos := 0, rest := s, caps := [] } <;> rfl
  unfold RegExp.test RegExp.exec
  cases s with
  | nil => simpa [execFrom] using key
  | cons c cs =>
    simp only [execFrom]
    cases hm : matchAt ⟨.seq .bol r, ci⟩ [] (c :: cs) with
    | none =>
      rw [hm] at key
      simp only [execFrom_bol ci r cs [c] (by simp)]
      exact key
    | some m => rw [hm] at key; simpa using key

theorem matchRe_anyOf_str (ci : Bool) (ps : List Str) (c : MState → Option MState)
    (hc : ∀ y, (c y).isSome = true) (x : MState) (hne : ps ≠ []) :
    (matchRe ci (Re.anyOf (ps.map Re.str)) c x).isSome =
      ps.any (fun p => (eatLiteral ci p x.rest).isSome) := by
  induction ps with
  | nil => exact absurd rfl hne
  | cons p ps ih =>
    have hp : (matchRe ci (Re.str p) c x).isSome = (eatLiteral ci p x.rest).isSome := by
      rw [matchRe_str]
      cases eatLiteral ci p x.rest with
      | none => rfl
      | some r => simpa using hc _
    cases ps with
    | nil => simpa [Re.anyOf] using hp
    | cons q qs =>
      have ih2 := ih (by simp)
      simp only [List.map, Re.anyOf, matchRe, List.any_cons]
      rw [← hp]
      simp only [List.map, List.any_cons] at ih2
      rw [← ih2]
      cases matchRe ci (Re.str p) c x <;> simp

theorem matchRe_group (ci : Bool) (i : Nat) (r : Re) (c : MState → Option MState) (x : MState) :
    matchRe ci (.group i r) c x =
      matchRe ci r
        (fun y => c { y with caps := (i, x.rest.take (y.pos - x.pos)) :: y.caps }) x := rfl

theorem excludedRe_test (s : Str) : excludedRe.test s = excludedBySpec s := by
  have h : excludedRe = ⟨.seq .bol (.group 1 (Re.anyOf (excludedSchemes.map Re.str))), true⟩ := rfl
  rw [h, test_bol, matchRe_group,
    matchRe_anyOf_str true excludedSchemes _ (by intro y; rfl) _ (by decide)]
  rfl

theorem not_ws_of_sameChar (a c : Char) (ha : isWhiteSpace (canonicalize a) = false)
    (h : sameChar true a c = true) : isWhiteSpace c = false := by
  by_contra hc
  have hc2 : isWhiteSpace c = true := by simpa using hc
  have e : canonicalize a = canonicalize c := by simpa [sameChar] using h
  rw [e, canonicalize_of_isWhiteSpace c hc2, hc2] at ha
  exact absurd ha (by simp)

theorem eatLiteral_trimEnd (p : Str) (hp : ∀ a ∈ p, isWhiteSpace (canonicalize a) = false) :
    ∀ (s t : Str), eatLiteral true p s = some t →
      eatLiteral true p (trimEnd s) = some (trimEnd t) := by
  induction p with
  | nil => intro s t h; simp [eatLiteral] at h ⊢; rw [h]
  | cons a ps ih =>
    intro s t h
    cases s with
    | nil => simp [eatLiteral] at h
    | cons c cs =>
      by_cases hs : sameChar true a c = true
      · simp only [eatLiteral, hs, if_true] at h
        have hc := not_ws_of_sameChar a c (hp a (by simp)) hs
        rw [trimEnd_cons_of_not_ws c cs hc]
        simp only [eatLiteral, hs, if_true]
        exact ih (fun b hb => hp b (by simp [hb])) cs t h
      · simp [eatLiteral, hs] at h

theorem excludedBySpec_trim (r : Str) (h : excludedBySpec r = true) :
    r ≠ [] ∧ trim r = trimEnd r ∧ excludedBySpec (trim r) = true := by
  simp only [excludedBySpec, List.any_eq_true] at h
  obtain ⟨p, hp, hm⟩ := h
  have hall : ∀ q ∈ excludedSchemes,
      q ≠ [] ∧ ∀ a ∈ q, isWhiteSpace (canonicalize a) = false := by decide
  have hws := (hall p hp).2
  have hne := (hall p hp).1
  simp only [startsWithCI, Option.isSome_iff_exists] at hm
  obtain ⟨t, ht⟩ := hm
  cases p with
  | nil => exact absurd rfl hne
  | cons a ps =>
    cases r with
    | nil => simp [eatLiteral] at ht
    | cons c cs =>
      have hs : sameChar true a c = true := by
        by_contra hs; simp [eatLiteral, hs] at ht
      have hc := not_ws_of_sameChar a c (hws a (by simp)) hs
      have htrim : trim (c :: cs) = trimEnd (c :: cs) := by
        unfold trim; rw [trimStart_cons_of_not_ws c cs hc]
      refine ⟨by simp, htrim, ?_⟩
      rw [htrim]
      simp only [excludedBySpec, List.any_eq_true]
      exact ⟨a :: ps, hp, by simp [startsWithCI, eatLiteral_trimEnd (a :: ps) hws _ t ht]⟩

/-! ## Lemmas: percent-encoding -/

theorem char_range (c : Char) :
    c.toNat < 0xD800 ∨ (0xDFFF < c.toNat ∧ c.toNat < 0x110000) := by
  have h := c.valid
  simp only [UInt32.isValidChar, Nat.isValidChar] at h
  exact h

theorem isCont_low (n : Nat) (h : n < 64) : isCont (0x80 + n) = true := by
  simp only [isCont, Bool.and_eq_true, decide_eq_true_eq]; omega

theorem decode_lead1 (b : Nat) (rest : List Tok) (h : b < 0x80) :
    utf8DecodeToks none (Tok.byte b :: rest) =
      (utf8DecodeToks none rest).map (fun t => Char.ofNat b :: t) := by
  rw [utf8DecodeToks, if_pos h]

theorem decode_lead2 (b : Nat) (rest : List Tok) (h1 : 0xC0 ≤ b) (h2 : b < 0xE0) :
    utf8DecodeToks none (Tok.byte b :: rest) =
      utf8DecodeToks (some ⟨b - 0xC0, 1, 0x80⟩) rest := by
  rw [utf8DecodeToks, if_neg (by omega), if_neg (by omega), if_pos h2]

theorem decode_lead3 (b : Nat) (rest : List Tok) (h1 : 0xE0 ≤ b) (h2 : b < 0xF0) :
    utf8DecodeToks none (Tok.byte b :: rest) =
      utf8DecodeToks (some ⟨b - 0xE0, 2, 0x800⟩) rest := by
  rw [utf8DecodeToks, if_neg (by omega), if_neg (by omega), if_neg (by omega), if_pos h2]

theorem decode_lead4 (b : Nat) (rest : List Tok) (h1 : 0xF0 ≤ b) (h2 : b < 0xF8) :
    utf8DecodeToks none (Tok.byte b :: rest) =
      utf8DecodeToks (some ⟨b - 0xF0, 3, 0x10000⟩) rest := by
  rw [utf8DecodeToks, if_neg (by omega), if_neg (by omega), if_neg (by omega), if_neg (by omega),
    if_pos h2]

theorem decode_cont (cp k least b : Nat) (rest : List Tok) (hb : isCont b = true) (hk : 1 < k) :
    utf8DecodeToks (some ⟨cp, k, least⟩) (Tok.byte b :: rest) =
      utf8DecodeToks (some ⟨cp * 64 + (b - 0x80), k - 1, least⟩) rest := by
  rw [utf8DecodeToks, if_pos hb]
  simp only
  rw [if_neg (by omega)]

theorem decode_last (cp k least b : Nat) (rest : List Tok) (hb : isCont b = true) (hk : k ≤ 1)
    (hv : least ≤ cp * 64 + (b - 0x80) ∧ cp * 64 + (b - 0x80) < 0x110000 ∧
      ¬ (0xD800 ≤ cp * 64 + (b - 0x80) ∧ cp * 64 + (b - 0x80) ≤ 0xDFFF)) :
    utf8DecodeToks (some ⟨cp, k, least⟩) (Tok.byte b :: rest) =
      (utf8DecodeToks none rest).map (fun t => Char.ofNat (cp * 64 + (b - 0x80)) :: t) := by
  rw [utf8DecodeToks, if_pos hb]
  simp only
  rw [if_pos hk, if_pos hv]

theorem utf8DecodeToks_bytes (c : Char) (rest : List Tok) :
    utf8DecodeToks none ((utf8Bytes c).map Tok.byte ++ rest) =
      (utf8DecodeToks none rest).map (fun t => c :: t) := by
  have hr := char_range c
  have hc : Char.ofNat c.toNat = c := Char.ofNat_toNat c
  unfold utf8Bytes
  simp only
  split
  · rename_i h1
    simp only [List.map_cons, List.map_nil, List.cons_append, List.nil_append]
    rw [decode_lead1 _ _ h1, hc]
  · split
    · rename_i h1 h2
      simp only [List.map_cons, List.map_nil, List.cons_append, List.nil_append]
      have e : (0xC0 + c.toNat / 64 - 0xC0) * 64 + (0x80 + c.toNat % 64 - 0x80) = c.toNat := by
        omega
      rw [decode_lead2 _ _ (by omega) (by omega),
        decode_last _ _ _ _ _ (isCont_low _ (by omega)) (by omega) (by omega), e, hc]
    · split
      · rename_i h1 h2 h3
        simp only [List.map_cons, List.map_nil, List.cons_append, List.nil_append]
        have e : ((0xE0 + c.toNat / 4096 - 0xE0) * 64 + (0x80 + c.toNat / 64 % 64 - 0x80)) * 64 +
            (0x80 + c.toNat % 64 - 0x80) = c.toNat := by omega
        rw [decode_lead3 _ _ (by omega) (by omega),
          decode_cont _ _ _ _ _ (isCont_low _ (by omega)) (by omega),
          decode_last _ _ _ _ _ (isCont_low _ (by omega)) (by omega) (by omega), e, hc]
      · rename_i h1 h2 h3
        simp only [List.map_cons, List.map_nil, List.cons_append, List.nil_append]
        have e : (((0xF0 + c.toNat / 262144 - 0xF0) * 64 + (0x80 + c.toNat / 4096 % 64 - 0x80)) * 64
            + (0x80 + c.toNat / 64 % 64 - 0x80)) * 64 + (0x80 + c.toNat % 64 - 0x80) = c.toNat := by
          omega
        rw [decode_lead4 _ _ (by omega) (by omega),
          decode_cont _ _ _ _ _ (isCont_low _ (by omega)) (by omega),
          decode_cont _ _ _ _ _ (isCont_low _ (by omega)) (by omega),
          decode_last _ _ _ _ _ (isCont_low _ (by omega)) (by omega) (by omega), e, hc]

theorem hexVal_hexDigit (n : Nat) (h : n < 16) : hexVal (hexDigit n) = some n := by
  interval_cases n <;> decide

theorem hexDigit_unescaped (n : Nat) (h : n < 16) : isUriUnescaped (hexDigit n) = true := by
  interval_cases n <;> decide

theorem percentToks_lit (c : Char) (hc : c ≠ '%') (rest : Str) :
    percentToks (c :: rest) = (percentToks rest).map (fun t => Tok.lit c :: t) := by
  have hb : (c == '%') = false := by simpa using hc
  match rest with
  | [] => simp [percentToks, hb]
  | [d] => simp [percentToks, hb]
  | d :: e :: r => simp [percentToks, hb]

theorem percentToks_byte (b : Nat) (hb : b < 256) (rest : Str) :
    percentToks (percentByte b ++ rest) = (percentToks rest).map (fun t => Tok.byte b :: t) := by
  have h1 := hexVal_hexDigit (b / 16) (by omega)
  have h2 := hexVal_hexDigit (b % 16) (by omega)
  have e : 16 * (b / 16) + b % 16 = b := by omega
  simp [percentByte, percentToks, h1, h2, e]

theorem utf8Bytes_lt (c : Char) : ∀ b ∈ utf8Bytes c, b < 256 := by
  have hr := char_range c
  intro b hb
  unfold utf8Bytes at hb
  simp only at hb
  split at hb
  · simp at hb; omega
  · split at hb
    · simp at hb; omega
    · split at hb
      · simp at hb; omega
      · simp at hb; omega

theorem percentToks_bytes (bs : List Nat) (hbs : ∀ b ∈ bs, b < 256) (rest : Str) :
    percentToks (bs.flatMap percentByte ++ rest) =
      (percentToks rest).map (fun t => bs.map Tok.byte ++ t) := by
  induction bs with
  | nil => simp
  | cons b bs ih =>
    simp only [List.flatMap_cons, List.append_assoc, List.map_cons, List.cons_append]
    rw [percentToks_byte b (hbs b (by simp)), ih (fun x hx => hbs x (by simp [hx]))]
    cases percentToks rest <;> simp

theorem unescaped_ne_percent (c : Char) (h : isUriUnescaped c = true) : c ≠ '%' := by
  intro e; subst e; revert h; decide

theorem encode_cons (c : Char) (cs : Str) :
    encodeURIComponent (c :: cs) =
      (if isUriUnescaped c then [c] else (utf8Bytes c).flatMap percentByte) ++
        encodeURIComponent cs := by
  simp [encodeURIComponent]

theorem encodedToks_cons (c : Char) (cs : Str) :
    encodedToks (c :: cs) =
      (if isUriUnescaped c then [Tok.lit c] else (utf8Bytes c).map Tok.byte) ++
        encodedToks cs := by
  simp [encodedToks]

theorem percentToks_encode (s : Str) :
    percentToks (encodeURIComponent s) = some (encodedToks s) := by
  induction s with
  | nil => rfl
  | cons c cs ih =>
    rw [encode_cons, encodedToks_cons]
    by_cases hc : isUriUnescaped c = true
    · rw [if_pos hc, if_pos hc]
      simp only [List.singleton_append]
      rw [percentToks_lit c (unescaped_ne_percent c hc), ih]; rfl
    · rw [if_neg hc, if_neg hc, percentToks_bytes _ (utf8Bytes_lt c), ih]; rfl

theorem utf8DecodeToks_encoded (s : Str) : utf8DecodeToks none (encodedToks s) = some s := by
  induction s with
  | nil => rfl
  | cons c cs ih =>
    rw [encodedToks_cons]
    by_cases hc : isUriUnescaped c = true
    · rw [if_pos hc]
      simp only [List.singleton_append]
      rw [utf8DecodeToks, ih]; rfl
    · rw [if_neg hc, utf8DecodeToks_bytes, ih]; rfl

theorem decode_encode (s : Str) : decodeURIComponent (encodeURIComponent s) = some s := by
  simp [decodeURIComponent, percentToks_encode, utf8DecodeToks_encoded]

theorem encode_chars (s : Str) :
    ∀ c ∈ encodeURIComponent s, isUriUnescaped c = true ∨ c = '%' := by
  induction s with
  | nil => intro c hc; simp [encodeURIComponent] at hc
  | cons a as ih =>
    intro c hc
    rw [encode_cons, List.mem_append] at hc
    rcases hc with hc | hc
    · by_cases hu : isUriUnescaped a = true
      · rw [if_pos hu, List.mem_singleton] at hc
        left; rw [hc]; exact hu
      · rw [if_neg hu, List.mem_flatMap] at hc
        obtain ⟨b, hb, hcb⟩ := hc
        have hb256 := utf8Bytes_lt a b hb
        simp only [percentByte, List.mem_cons, List.mem_singleton, List.not_mem_nil,
          or_false] at hcb
        rcases hcb with h | h | h
        · right; exact h
        · left; rw [h]; exact hexDigit_unescaped _ (by omega)
        · left; rw [h]; exact hexDigit_unescaped _ (by omega)
    · exact ih c hc

/-! ## Lemmas: the helpers -/

theorem trimEnd_split (s : Str) :
    ∃ w : Str, s = trimEnd s ++ w ∧ ∀ c ∈ w, isWhiteSpace c = true := by
  induction s with
  | nil => exact ⟨[], rfl, by simp⟩
  | cons c cs ih =>
    obtain ⟨w, hw, hall⟩ := ih
    by_cases hc : isWhiteSpace c = true
    · cases hcs : trimEnd cs with
      | nil =>
        refine ⟨c :: cs, ?_, ?_⟩
        · simp [trimEnd, hcs, hc]
        · rw [hcs] at hw
          intro d hd
          rcases List.mem_cons.mp hd with h | h
          · rw [h]; exact hc
          · rw [hw] at h; exact hall d (by simpa using h)
      | cons a r =>
        refine ⟨w, ?_, hall⟩
        have : trimEnd (c :: cs) = c :: trimEnd cs := by simp [trimEnd, hcs]
        rw [this, List.cons_append, ← hw]
    · have hc2 : isWhiteSpace c = false := by simpa using hc
      refine ⟨w, ?_, hall⟩
      rw [trimEnd_cons_of_not_ws c cs hc2, List.cons_append, ← hw]

theorem matchRe_seq (ci : Bool) (a b : Re) (c : MState → Option MState) (x : MState) :
    matchRe ci (.seq a b) c x = matchRe ci a (fun y => matchRe ci b c y) x := rfl

theorem httpRe_test_slash (t : Str) : httpRe.test ('/' :: t) = false := by
  have h : httpRe = ⟨.seq .bol (.seq (Re.str "http".toList)
      (.seq (Re.opt (.ch 's')) (Re.str "://".toList))), true⟩ := rfl
  rw [h, test_bol, matchRe_seq, matchRe_str]
  rfl

theorem startsWith_slashes (t : Str) (h : startsWith t "//".toList = true) :
    ∃ u, t = '/' :: '/' :: u := by
  match t with
  | [] => simp [startsWith] at h
  | [a] => simp [startsWith] at h
  | a :: b :: u =>
    have h2 : (a == '/' && (b == '/' && startsWith u [])) = true := h
    simp only [Bool.and_eq_true, beq_iff_eq] at h2
    exact ⟨u, by rw [h2.1, h2.2.1]⟩

theorem isEmpty_false_of_ne {s : Str} (h : s ≠ []) : s.isEmpty = false := by
  cases s with
  | nil => exact absurd rfl h
  | cons a b => rfl

theorem trim_ne_nil {r : Str} (h : trim r ≠ []) : r ≠ [] := by
  intro e; subst e; exact h rfl

/-- When `proxyUrl` does not reach its encoding branch it gives back the
reference, trimmed unless it is empty. -/
theorem proxyUrl_unchanged (U : URLCtor) (r base o : Str)
    (h : producesProxied U r base = false) :
    proxyUrl U r base o = trim r := by
  unfold producesProxied resolvedTarget at h
  unfold proxyUrl
  by_cases he : r.isEmpty = true
  · have : r = [] := by simpa using he
    subst this; rfl
  · have he2 : r.isEmpty = false := by simpa using he
    simp only [he2, Bool.not_false, Bool.true_and, Bool.false_eq_true, if_false] at h ⊢
    by_cases hx : excludedRe.test (trim r) = true
    · simp [hx]
    · have hx2 : excludedRe.test (trim r) = false := by simpa using hx
      simp only [hx2, Bool.not_false, Bool.true_and, Bool.false_eq_true, if_false] at h ⊢
      cases hres : (if base.isEmpty = true then some (trim r) else resolveUrl U base (trim r)) with
      | none => rfl
      | some resolved =>
        rw [hres] at h
        simp only at h
        simp [h]

/-! ## Lemmas: the matcher on the base declaration -/

theorem canonicalize_special (a : Char) (ha : isSpecialChar a = true) : canonicalize a = a := by
  unfold canonicalize
  split
  · rename_i h
    simp [isSpecialChar] at ha
    omega
  · rfl

theorem canonicalize_eq_special (a c : Char) (ha : isSpecialChar a = true)
    (h : canonicalize c = a) : c = a := by
  unfold canonicalize at h
  split at h
  · rename_i hc
    exfalso
    have hn : ∃ n, c.toNat = n ∧ 97 ≤ n ∧ n ≤ 122 := ⟨c.toNat, rfl, hc.1, hc.2⟩
    obtain ⟨n, hn, h1, h2⟩ := hn
    rw [hn] at h
    rw [← h] at ha
    revert ha
    interval_cases n <;> decide
  · exact h

theorem sameChar_special (a c : Char) (ha : isSpecialChar a = true) :
    sameChar true a c = (a == c) := by
  unfold sameChar
  simp only [if_true, canonicalize_special a ha]
  by_cases h : a = c
  · subst h; simp [canonicalize_special a ha]
  · have : ¬ (a = canonicalize c) := fun e => h (canonicalize_eq_special a c ha e.symm).symm
    simp [h, this]

theorem matchRe_cls_cons (ci neg : Bool) (items : List ClassItem) (c : MState → Option MState)
    (p : Nat) (b : Char) (bs : Str) (cs : List (Nat × Str)) :
    matchRe ci (.cls neg items) c ⟨p, b :: bs, cs⟩ =
      if accepts ci neg items b then c ⟨p + 1, bs, cs⟩ else none := rfl

theorem matchRe_cls_stop (ci neg : Bool) (items : List ClassItem) (c : MState → Option MState)
    (p : Nat) (R : Str) (cs : List (Nat × Str)) (h : stopsAt ci neg items R = true) :
    matchRe ci (.cls neg items) c ⟨p, R, cs⟩ = none := by
  cases R with
  | nil => rfl
  | cons a R =>
    rw [matchRe_cls_cons]
    simp only [stopsAt, Bool.not_eq_true'] at h
    simp [h]

theorem filter_no_groups (cs : List (Nat × Str)) :
    cs.filter (fun p => !([] : List Nat).contains p.1) = cs := by
  simp

theorem repeatMatcher_succ (m : (MState → Option MState) → MState → Option MState)
    (fuel min : Nat) (C : MState → Option MState) (x : MState) :
    repeatMatcher m [] true (fuel + 1) min none C x =
      if min != 0 then
        m (fun y => if min == 0 && y.pos == x.pos then none
                    else repeatMatcher m [] true fuel (min - 1) none C y) x
      else
        match m (fun y => if min == 0 && y.pos == x.pos then none
                    else repeatMatcher m [] true fuel (min - 1) none C y) x with
        | some z => some z
        | none => C x := by
  rw [repeatMatcher]
  simp only [Option.map_none', filter_no_groups]
  have : ((none : Option Nat) == some 0) = false := rfl
  simp only [this, Bool.false_eq_true, if_false, if_true]

/-- A greedy repetition of a class over a run `B` of accepted code points, where
the text goes on with a code point that the class rejects, hands the state
after the whole run to the continuation; when the continuation succeeds
there, that is the result. -/
theorem repeatMatcher_greedy_run (ci neg : Bool) (items : List ClassItem)
    (C : MState → Option MState) (R : Str) (cs : List (Nat × Str)) (z : MState)
    (hR : stopsAt ci neg items R = true) :
    ∀ (B : Str) (fuel min p : Nat), (∀ b ∈ B, accepts ci neg items b = true) →
      B.length + 1 ≤ fuel → min ≤ B.length → C ⟨p + B.length, R, cs⟩ = some z →
      repeatMatcher (matchRe ci (.cls neg items)) [] true fuel min none C ⟨p, B ++ R, cs⟩
        = some z := by
  intro B
  induction B with
  | nil =>
    intro fuel min p _ hf hm hC
    cases fuel with
    | zero => exact absurd hf (by simp)
    | succ f =>
      have hmin : min = 0 := by simpa using hm
      subst hmin
      rw [repeatMatcher_succ]
      simp only [List.nil_append, bne_self_eq_false, Bool.false_eq_true, if_false]
      rw [matchRe_cls_stop ci neg items _ p R cs hR]
      simpa using hC
  | cons b B ih =>
    intro fuel min p hB hf hm hC
    cases fuel with
    | zero => exact absurd hf (by simp)
    | succ f =>
      have hb : accepts ci neg items b = true := hB b (by simp)
      have hC2 : C ⟨p + 1 + B.length, R, cs⟩ = some z := by
        have e : p + 1 + B.length = p + (b :: B).length := by simp; omega
        rw [e]; exact hC
      have hrec := ih f (min - 1) (p + 1) (fun x hx => hB x (by simp [hx]))
        (by simp at hf; omega) (by simp at hm; omega) hC2
      rw [repeatMatcher_succ]
      simp only [List.cons_append]
      rw [matchRe_cls_cons]
      simp only [hb, if_true]
      have hpos : (p + 1 == p) = false := by simp
      simp only [hpos, Bool.and_false, Bool.false_eq_true, if_false, hrec]
      split <;> rfl

/-- A greedy repetition of a class leads to failure when the continuation
fails wherever the repetition can stop. -/
theorem repeatMatcher_greedy_none (ci neg : Bool) (items : List ClassItem)
    (C : MState → Option MState) (R : Str) (hR : stopsAt ci neg items R = true) :
    ∀ (W : Str), (∀ W2, W2 <:+ W → ∀ p cs, C ⟨p, W2 ++ R, cs⟩ = none) →
      ∀ (fuel p : Nat) (cs : List (Nat × Str)),
      repeatMatcher (matchRe ci (.cls neg items)) [] true fuel 0 none C ⟨p, W ++ R, cs⟩
        = none := by
  intro W
  induction W with
  | nil =>
    intro hC fuel p cs
    cases fuel with
    | zero => rfl
    | succ f =>
      rw [repeatMatcher_succ]
      simp only [List.nil_append, bne_self_eq_false, Bool.false_eq_true, if_false]
      rw [matchRe_cls_stop ci neg items _ p R cs hR]
      simpa using hC [] (List.suffix_refl _) p cs
  | cons a W ih =>
    intro hC fuel p cs
    cases fuel with
    | zero => rfl
    | succ f =>
      have hrec := ih (fun W2 h2 => hC W2 (h2.trans (List.suffix_cons a W)))
      rw [repeatMatcher_succ]
      simp only [List.cons_append, bne_self_eq_false, Bool.false_eq_true, if_false]
      rw [matchRe_cls_cons]
      have hpos : (p + 1 == p) = false := by simp
      have hx := hC (a :: W) (List.suffix_refl _) p cs
      simp only [List.cons_append] at hx
      by_cases ha : accepts ci neg items a = true
      · simp only [ha, if_true, hpos, Bool.and_false, Bool.false_eq_true, if_false, hrec, hx]
      · simp only [ha, Bool.false_eq_true, if_false, hx]

theorem baseHrefRe_eq :
    baseHrefRe = ⟨.seq (Re.str "<base".toList) (.seq (Re.plus notGtCls) afterBase), true⟩ := rfl

theorem matchRe_rep (ci : Bool) (min : Nat) (max : Option Nat) (greedy : Bool) (r : Re)
    (c : MState → Option MState) (x : MState) :
    matchRe ci (.rep min max greedy r) c x =
      repeatMatcher (matchRe ci r) r.groups greedy (min + x.rest.length + 1) min max c x := rfl

theorem matchRe_ch_cons (ci : Bool) (a : Char) (c : MState → Option MState)
    (p : Nat) (b : Char) (bs : Str) (cs : List (Nat × Str)) :
    matchRe ci (.ch a) c ⟨p, b :: bs, cs⟩ =
      if sameChar ci a b then c ⟨p + 1, bs, cs⟩ else none := rfl

/-- A starred class in front of a code point it rejects matches nothing. -/
theorem matchRe_star_stop (ci neg : Bool) (items : List ClassItem) (C : MState → Option MState)
    (p : Nat) (R : Str) (cs : List (Nat × Str)) (hR : stopsAt ci neg items R = true) :
    matchRe ci (Re.star (.cls neg items)) C ⟨p, R, cs⟩ = C ⟨p, R, cs⟩ := by
  unfold Re.star
  rw [matchRe_rep]
  show repeatMatcher (matchRe ci (.cls neg items)) [] true (0 + R.length + 1) 0 none C ⟨p, R, cs⟩ = _
  rw [repeatMatcher_succ]
  simp only [bne_self_eq_false, Bool.false_eq_true, if_false]
  rw [matchRe_cls_stop ci neg items _ p R cs hR]

/-- A greedy `+` of a class over a run of accepted code points. -/
theorem matchRe_plus_run (ci neg : Bool) (items : List ClassItem) (C : MState → Option MState)
    (p : Nat) (B R : Str) (cs : List (Nat × Str)) (z : MState)
    (hR : stopsAt ci neg items R = true) (hB : ∀ b ∈ B, accepts ci neg items b = true)
    (hne : B ≠ []) (hC : C ⟨p + B.length, R, cs⟩ = some z) :
    matchRe ci (Re.plus (.cls neg items)) C ⟨p, B ++ R, cs⟩ = some z := by
  unfold Re.plus
  rw [matchRe_rep]
  show repeatMatcher (matchRe ci (.cls neg items)) [] true (1 + (B ++ R).length + 1) 1 none C
    ⟨p, B ++ R, cs⟩ = _
  have hl : 1 ≤ B.length := by
    cases B with
    | nil => exact absurd rfl hne
    | cons a b => simp
  exact repeatMatcher_greedy_run ci neg items C R cs z hR B _ 1 p hB
    (by simp; omega) hl hC

theorem accepts_noneOf (cs : Str) (hcs : ∀ a ∈ cs, isSpecialChar a = true) (b : Char) :
    accepts true true (cs.map ClassItem.ch) b = !cs.contains b := by
  unfold accepts
  induction cs with
  | nil => rfl
  | cons a cs ih =>
    have ih2 := ih (fun x hx => hcs x (by simp [hx]))
    simp only [List.map_cons, List.any_cons, ClassItem.has, sameChar_special a b (hcs a (by simp)),
      List.contains_cons] at ih2 ⊢
    cases hab : (a == b) with
    | true => simp [hab, beq_iff_eq.mp hab]
    | false =>
      have hba : (b == a) = false := by
        rw [Bool.eq_false_iff] at hab ⊢
        intro h; exact hab (by rw [beq_iff_eq] at h ⊢; exact h.symm)
      simpa [hab, hba] using ih2

theorem accepts_oneOf (cs : Str) (hcs : ∀ a ∈ cs, isSpecialChar a = true) (b : Char) :
    accepts true false (cs.map ClassItem.ch) b = cs.contains b := by
  unfold accepts
  induction cs with
  | nil => rfl
  | cons a cs ih =>
    have ih2 := ih (fun x hx => hcs x (by simp [hx]))
    simp only [List.map_cons, List.any_cons, ClassItem.has, sameChar_special a b (hcs a (by simp)),
      List.contains_cons] at ih2 ⊢
    cases hab : (a == b) with
    | true => simp [hab, beq_iff_eq.mp hab]
    | false =>
      have hba : (b == a) = false := by
        rw [Bool.eq_false_iff] at hab ⊢
        intro h; exact hab (by rw [beq_iff_eq] at h ⊢; exact h.symm)
      simpa [hab, hba] using ih2

theorem plainValue_spec (B : Str) (h : plainValue B = true) :
    B ≠ [] ∧ (∀ b ∈ B, accepts true true ("\"'".toList.map ClassItem.ch) b = true) ∧
    (∀ b ∈ B, accepts true true (">".toList.map ClassItem.ch) b = true) := by
  simp only [plainValue, Bool.and_eq_true, Bool.not_eq_true', List.isEmpty_eq_false,
    List.all_eq_true] at h
  refine ⟨h.1, ?_, ?_⟩
  · intro b hb
    rw [accepts_noneOf _ (by decide)]
    have := h.2 b hb
    revert this
    simp only [String.toList, List.contains_cons, List.contains_nil, Bool.or_false,
      Bool.not_eq_true', Bool.or_eq_false_iff]
    intro h2
    simp [h2.1, h2.2.1]
  · intro b hb
    rw [accepts_noneOf _ (by decide)]
    have := h.2 b hb
    revert this
    simp only [String.toList, List.contains_cons, List.contains_nil, Bool.or_false,
      Bool.not_eq_true', Bool.or_eq_false_iff]
    intro h2
    simp [h2.2.2]

theorem afterValue_ok (p : Nat) (post : Str) (cs : List (Nat × Str)) :
    matchRe true afterValue some ⟨p, '"' :: '>' :: post, cs⟩ = some ⟨p + 1 + 1, post, cs⟩ := by
  unfold afterValue quoteCls notGtCls Re.oneOf Re.noneOf
  rw [matchRe_seq, matchRe_cls_cons]
  have h1 : accepts true false ("\"'".toList.map ClassItem.ch) '"' = true := by decide
  simp only [h1, if_true]
  rw [matchRe_seq, matchRe_star_stop _ _ _ _ _ _ _ (by simp only [stopsAt]; decide), matchRe_ch_cons]
  have h2 : sameChar true '>' '>' = true := by decide
  simp only [h2, if_true]

theorem group_ok (p : Nat) (B post : Str) (cs : List (Nat × Str)) (hB : plainValue B = true) :
    matchRe true (.seq (.group 1 (Re.plus notQuoteCls)) afterValue) some
        ⟨p, B ++ '"' :: '>' :: post, cs⟩
      = some ⟨p + B.length + 1 + 1, post, (1, B) :: cs⟩ := by
  obtain ⟨hne, hq, _⟩ := plainValue_spec B hB
  rw [matchRe_seq, matchRe_group]
  unfold notQuoteCls Re.noneOf
  apply matchRe_plus_run true true _ _ p B _ cs _ (by simp only [stopsAt]; decide) hq hne
  simp only [Nat.add_sub_cancel_left, List.take_left']
  exact afterValue_ok (p + B.length) post ((1, B) :: cs)

theorem afterHref_ok (p : Nat) (B post : Str) (cs : List (Nat × Str)) (hB : plainValue B = true) :
    matchRe true afterHref some ⟨p, '=' :: '"' :: (B ++ '"' :: '>' :: post), cs⟩
      = some ⟨p + 1 + 1 + B.length + 1 + 1, post, (1, B) :: cs⟩ := by
  unfold afterHref Re.ws
  rw [matchRe_seq, matchRe_star_stop _ _ _ _ _ _ _ (by simp only [stopsAt]; decide), matchRe_seq, matchRe_ch_cons]
  have h1 : sameChar true '=' '=' = true := by decide
  simp only [h1, if_true]
  rw [matchRe_seq, matchRe_star_stop _ _ _ _ _ _ _ (by simp only [stopsAt]; decide), matchRe_seq]
  unfold quoteCls Re.oneOf
  rw [matchRe_cls_cons]
  have h2 : accepts true false ("\"'".toList.map ClassItem.ch) '"' = true := by decide
  simp only [h2, if_true]
  exact group_ok (p + 1 + 1) B post cs hB

theorem afterBase_ok (p : Nat) (B post : Str) (cs : List (Nat × Str)) (hB : plainValue B = true) :
    matchRe true afterBase some
        ⟨p, 'h' :: 'r' :: 'e' :: 'f' :: '=' :: '"' :: (B ++ '"' :: '>' :: post), cs⟩
      = some ⟨p + 4 + 1 + 1 + B.length + 1 + 1, post, (1, B) :: cs⟩ := by
  unfold afterBase
  rw [matchRe_seq, matchRe_str]
  have h : eatLiteral true "href".toList
      ('h' :: 'r' :: 'e' :: 'f' :: '=' :: '"' :: (B ++ '"' :: '>' :: post))
      = some ('=' :: '"' :: (B ++ '"' :: '>' :: post)) := by
    have s1 : sameChar true 'h' 'h' = true := by decide
    have s2 : sameChar true 'r' 'r' = true := by decide
    have s3 : sameChar true 'e' 'e' = true := by decide
    have s4 : sameChar true 'f' 'f' = true := by decide
    simp [eatLiteral, s1, s2, s3, s4]
  simp only [h]
  exact afterHref_ok (p + 4) B post cs hB

theorem includesCI_suffix (p : Str) : ∀ (S : Str), includesCI S p = false →
    ∀ S2, S2 <:+ S → startsWithCI S2 p = false := by
  intro S
  induction S with
  | nil =>
    intro h S2 h2
    have : S2 = [] := List.suffix_nil.mp h2
    subst this; exact h
  | cons c cs ih =>
    intro h S2 h2
    simp only [includesCI, Bool.or_eq_false_iff] at h
    rcases List.suffix_cons_iff.mp h2 with e | h3
    · subst e; exact h.1
    · exact ih h.2 S2 h3

theorem eatLiteral_ext (q : Char) (X : Str) : ∀ (p S2 : Str), eatLiteral true p S2 = none →
    (∀ a ∈ p, sameChar true a q = false) → eatLiteral true p (S2 ++ q :: X) = none := by
  intro p
  induction p with
  | nil => intro S2 h; simp [eatLiteral] at h
  | cons a ps ih =>
    intro S2 h hq
    cases S2 with
    | nil => simp [eatLiteral, hq a (by simp)]
    | cons c cs =>
      simp only [List.cons_append, eatLiteral] at h ⊢
      by_cases hs : sameChar true a c = true
      · simp only [hs, if_true] at h ⊢
        exact ih cs h (fun x hx => hq x (by simp [hx]))
      · simp [hs]

theorem eatLiteral_ext_cons (q : Char) (X : Str) (a : Char) (ps : Str) (c : Char) (cs : Str)
    (h : eatLiteral true (a :: ps) (c :: cs) = none)
    (hq : ∀ x ∈ ps, sameChar true x q = false) :
    eatLiteral true (a :: ps) (c :: cs ++ q :: X) = none := by
  simp only [List.cons_append, eatLiteral] at h ⊢
  by_cases hs : sameChar true a c = true
  · simp only [hs, if_true] at h ⊢
    exact eatLiteral_ext q X ps cs h hq
  · simp [hs]

theorem suffix_concat (q : Char) (B W2 : Str) (h : W2 <:+ B ++ [q]) :
    W2 = [] ∨ ∃ B2, B2 <:+ B ∧ W2 = B2 ++ [q] := by
  rcases List.eq_nil_or_concat W2 with e | ⟨W, x, e⟩
  · left; exact e
  · right
    subst e
    obtain ⟨t, ht⟩ := h
    have ht2 : (t ++ W) ++ [x] = B ++ [q] := by simpa [List.concat_eq_append] using ht
    have := List.append_inj' ht2 rfl
    refine ⟨W, ⟨t, this.1⟩, ?_⟩
    have hx : x = q := by simpa using this.2
    simp [List.concat_eq_append, hx]

theorem afterBase_none_of_eat (p : Nat) (S : Str) (cs : List (Nat × Str))
    (h : eatLiteral true "href".toList S = none) :
    matchRe true afterBase some ⟨p, S, cs⟩ = none := by
  unfold afterBase
  rw [matchRe_seq, matchRe_str]
  simp only [h]

theorem afterBase_fail_value (B post : Str) (hB : includesCI B "href".toList = false) :
    ∀ W2, W2 <:+ B ++ ['"'] → ∀ (p : Nat) (cs : List (Nat × Str)),
      matchRe true afterBase some ⟨p, W2 ++ '>' :: post, cs⟩ = none := by
  intro W2 h p cs
  apply afterBase_none_of_eat
  rcases suffix_concat '"' B W2 h with e | ⟨B2, hB2, e⟩
  · subst e
    have : sameChar true 'h' '>' = false := by decide
    simp [eatLiteral, this]
  · subst e
    have h1 : eatLiteral true "href".toList B2 = none := by
      have := includesCI_suffix "href".toList B hB B2 hB2
      simpa [startsWithCI] using this
    have h2 := eatLiteral_ext '"' ('>' :: post) "href".toList B2 h1 (by decide)
    simpa using h2

theorem afterBase_fail_tag (B post : Str) (hB : includesCI B "href".toList = false) :
    ∀ W2, W2 <:+ 'r' :: 'e' :: 'f' :: '=' :: '"' :: (B ++ ['"']) →
      ∀ (p : Nat) (cs : List (Nat × Str)),
      matchRe true afterBase some ⟨p, W2 ++ '>' :: post, cs⟩ = none := by
  intro W2 h p cs
  have hr : sameChar true 'h' 'r' = false := by decide
  have he : sameChar true 'h' 'e' = false := by decide
  have hf : sameChar true 'h' 'f' = false := by decide
  have hq : sameChar true 'h' '=' = false := by decide
  have hd : sameChar true 'h' '"' = false := by decide
  rcases List.suffix_cons_iff.mp h with e | h
  · subst e; apply afterBase_none_of_eat; simp [eatLiteral, hr]
  rcases List.suffix_cons_iff.mp h with e | h
  · subst e; apply afterBase_none_of_eat; simp [eatLiteral, he]
  rcases List.suffix_cons_iff.mp h with e | h
  · subst e; apply afterBase_none_of_eat; simp [eatLiteral, hf]
  rcases List.suffix_cons_iff.mp h with e | h
  · subst e; apply afterBase_none_of_eat; simp [eatLiteral, hq]
  rcases List.suffix_cons_iff.mp h with e | h
  · subst e; apply afterBase_none_of_eat; simp [eatLiteral, hd]
  exact afterBase_fail_value B post hB W2 h p cs

theorem plus_core (B post : Str) (hB : plainValue B = true)
    (hH : includesCI B "href".toList = false) (p : Nat) (cs : List (Nat × Str)) (fuel : Nat) :
    repeatMatcher (matchRe true notGtCls) [] true (fuel + 1 + 1) 1 none
        (fun y => matchRe true afterBase some y)
        ⟨p, ' ' :: 'h' :: 'r' :: 'e' :: 'f' :: '=' :: '"' :: (B ++ '"' :: '>' :: post), cs⟩
      = some ⟨p + 1 + 4 + 1 + 1 + B.length + 1 + 1, post, (1, B) :: cs⟩ := by
  have hsp : accepts true true (">".toList.map ClassItem.ch) ' ' = true := by decide
  have hh : accepts true true (">".toList.map ClassItem.ch) 'h' = true := by decide
  have e : 'r' :: 'e' :: 'f' :: '=' :: '"' :: (B ++ '"' :: '>' :: post)
      = ('r' :: 'e' :: 'f' :: '=' :: '"' :: (B ++ ['"'])) ++ '>' :: post := by simp
  have hnone := repeatMatcher_greedy_none true true (">".toList.map ClassItem.ch)
    (fun y => matchRe true afterBase some y) ('>' :: post) (by simp only [stopsAt]; decide)
    ('r' :: 'e' :: 'f' :: '=' :: '"' :: (B ++ ['"'])) (afterBase_fail_tag B post hH)
    fuel (p + 1 + 1) cs
  rw [← e] at hnone
  unfold notGtCls Re.noneOf
  rw [repeatMatcher_succ]
  have h10 : ((1 : Nat) != 0) = true := rfl
  have h1e : ((1 : Nat) == 0) = false := rfl
  simp only [h10, if_true, h1e, Bool.false_and, Bool.false_eq_true, if_false]
  rw [matchRe_cls_cons]
  simp only [hsp, if_true]
  rw [repeatMatcher_succ]
  simp only [Nat.sub_self, bne_self_eq_false, Bool.false_eq_true, if_false]
  rw [matchRe_cls_cons]
  have hpos : (p + 1 + 1 == p + 1) = false := by simp
  simp only [hh, if_true, hpos, Bool.and_false, Bool.false_eq_true, if_false, Nat.zero_sub, hnone]
  exact afterBase_ok (p + 1) B post cs hB

theorem baseTag_append (B post : Str) :
    baseTag B ++ post = '<' :: 'b' :: 'a' :: 's' :: 'e' :: ' ' :: 'h' :: 'r' :: 'e' :: 'f' ::
      '=' :: '"' :: (B ++ '"' :: '>' :: post) := by
  simp [baseTag]

theorem matchAt_baseTag (before B post : Str) (hB : plainValue B = true)
    (hH : includesCI B "href".toList = false) :
    ∃ m, matchAt baseHrefRe before (baseTag B ++ post) = some m ∧ capText m 1 = B := by
  have hm : ∃ q, matchRe true baseHrefRe.re some ⟨before.length, baseTag B ++ post, []⟩
      = some ⟨q, post, [(1, B)]⟩ := by
    rw [baseHrefRe_eq, baseTag_append]
    simp only
    rw [matchRe_seq, matchRe_str]
    have h : eatLiteral true "<base".toList
        ('<' :: 'b' :: 'a' :: 's' :: 'e' :: ' ' :: 'h' :: 'r' :: 'e' :: 'f' :: '=' :: '"' ::
          (B ++ '"' :: '>' :: post))
        = some (' ' :: 'h' :: 'r' :: 'e' :: 'f' :: '=' :: '"' :: (B ++ '"' :: '>' :: post)) := by
      have s1 : sameChar true '<' '<' = true := by decide
      have s2 : sameChar true 'b' 'b' = true := by decide
      have s3 : sameChar true 'a' 'a' = true := by decide
      have s4 : sameChar true 's' 's' = true := by decide
      have s5 : sameChar true 'e' 'e' = true := by decide
      simp [eatLiteral, s1, s2, s3, s4, s5]
    simp only [h]
    rw [matchRe_seq]
    unfold Re.plus
    rw [matchRe_rep]
    have hf : 1 + (' ' :: 'h' :: 'r' :: 'e' :: 'f' :: '=' :: '"' ::
        (B ++ '"' :: '>' :: post)).length + 1
        = (B ++ '"' :: '>' :: post).length + 7 + 1 + 1 := by
      simp only [List.length_cons]; omega
    show ∃ q, repeatMatcher (matchRe true notGtCls) [] true _ 1 none _ _ = _
    simp only [hf]
    exact ⟨_, plus_core B post hB hH _ [] _⟩
  obtain ⟨q, hq⟩ := hm
  have hi : baseHrefRe.ignoreCase = true := rfl
  refine ⟨⟨before.reverse, (baseTag B ++ post).take (q - before.length), post, [(1, B)]⟩, ?_, ?_⟩
  · unfold matchAt
    rw [hi, hq]
  · simp [capText, Match.cap]

theorem matchAt_no_base (before : Str) (c : Char) (cs X : Str)
    (h : startsWithCI (c :: cs) "<base".toList = false) :
    matchAt baseHrefRe before (c :: cs ++ '<' :: X) = none := by
  have he : eatLiteral true "<base".toList (c :: cs ++ '<' :: X) = none := by
    apply eatLiteral_ext_cons '<' X '<' "base".toList c cs
    · simpa [startsWithCI] using h
    · decide
  unfold matchAt
  rw [baseHrefRe_eq]
  simp only
  rw [matchRe_seq, matchRe_str]
  simp only [he]

theorem execFrom_skip (X : Str) : ∀ (pre before : Str),
    includesCI pre "<base".toList = false →
    execFrom baseHrefRe before (pre ++ '<' :: X) =
      execFrom baseHrefRe (pre.reverse ++ before) ('<' :: X) := by
  intro pre
  induction pre with
  | nil => intro before _; rfl
  | cons c cs ih =>
    intro before h
    have h1 := includesCI_suffix "<base".toList (c :: cs) h (c :: cs) (List.suffix_refl _)
    have h2 : includesCI cs "<base".toList = false := by
      simp only [includesCI, Bool.or_eq_false_iff] at h; exact h.2
    have hm := matchAt_no_base before c cs X h1
    simp only [List.cons_append] at hm ⊢
    rw [execFrom, hm]
    simp only
    rw [ih (c :: before) h2]
    simp

/-- In a document that holds the tag `<base href="B">` with no `<base` in front
of it, where `B` is not empty and holds no quote, no `>` and not the letters
`href`, the source's base pattern matches and captures `B`. -/
theorem baseHrefRe_exec_tag (pre B post : Str)
    (hpre : includesCI pre "<base".toList = false) (hB : plainValue B = true)
    (hH : includesCI B "href".toList = false) :
    ∃ m, baseHrefRe.exec (pre ++ baseTag B ++ post) = some m ∧ capText m 1 = B := by
  obtain ⟨m, hm, hc⟩ := matchAt_baseTag (pre.reverse ++ []) B post hB hH
  refine ⟨m, ?_, hc⟩
  unfold RegExp.exec
  have e : pre ++ baseTag B ++ post = pre ++ '<' :: ('b' :: 'a' :: 's' :: 'e' :: ' ' :: 'h' ::
      'r' :: 'e' :: 'f' :: '=' :: '"' :: (B ++ '"' :: '>' :: post)) := by
    rw [List.append_assoc, baseTag_append]
  rw [e, execFrom_skip _ pre [] hpre, execFrom]
  rw [baseTag_append] at hm
  rw [hm]

theorem baseTagRe_eq :
    baseTagRe = ⟨.seq (Re.str "<base".toList) (.seq (Re.plus notGtCls) (.ch '>')), true⟩ := rfl

theorem matchAt_baseTagRe (before B post : Str) (hB : plainValue B = true) :
    matchAt baseTagRe before (baseTag B ++ post) =
      some ⟨before.reverse, baseTag B, post, []⟩ := by
  obtain ⟨_, _, hgt⟩ := plainValue_spec B hB
  have hrun : ∀ b ∈ ' ' :: 'h' :: 'r' :: 'e' :: 'f' :: '=' :: '"' :: (B ++ ['"']),
      accepts true true (">".toList.map ClassItem.ch) b = true := by
    intro b hb
    simp only [List.mem_cons, List.mem_append, List.mem_singleton, List.not_mem_nil,
      or_false] at hb
    rcases hb with h | h | h | h | h | h | h | h | h
    · subst h; decide
    · subst h; decide
    · subst h; decide
    · subst h; decide
    · subst h; decide
    · subst h; decide
    · subst h; decide
    · exact hgt b h
    · subst h; decide
  have e : ' ' :: 'h' :: 'r' :: 'e' :: 'f' :: '=' :: '"' :: (B ++ '"' :: '>' :: post)
      = (' ' :: 'h' :: 'r' :: 'e' :: 'f' :: '=' :: '"' :: (B ++ ['"'])) ++ '>' :: post := by simp
  have hm : matchRe true baseTagRe.re some ⟨before.length, baseTag B ++ post, []⟩
      = some ⟨before.length + 5 + (B.length + 8) + 1, post, []⟩ := by
    rw [baseTagRe_eq, baseTag_append]
    simp only
    rw [matchRe_seq, matchRe_str]
    have h : eatLiteral true "<base".toList
        ('<' :: 'b' :: 'a' :: 's' :: 'e' :: ' ' :: 'h' :: 'r' :: 'e' :: 'f' :: '=' :: '"' ::
          (B ++ '"' :: '>' :: post))
        = some (' ' :: 'h' :: 'r' :: 'e' :: 'f' :: '=' :: '"' :: (B ++ '"' :: '>' :: post)) := by
      have s1 : sameChar true '<' '<' = true := by decide
      have s2 : sameChar true 'b' 'b' = true := by decide
      have s3 : sameChar true 'a' 'a' = true := by decide
      have s4 : sameChar true 's' 's' = true := by decide
      have s5 : sameChar true 'e' 'e' = true := by decide
      simp [eatLiteral, s1, s2, s3, s4, s5]
    simp only [h]
    rw [matchRe_seq, e]
    unfold notGtCls Re.noneOf
    apply matchRe_plus_run true true _ _ _ _ _ [] _ (by simp only [stopsAt]; decide) hrun
      (by simp)
    rw [matchRe_ch_cons]
    have s : sameChar true '>' '>' = true := by decide
    simp only [s, if_true, List.length_cons, List.length_append, List.length_nil]
    rfl
  unfold matchAt
  have hi : baseTagRe.ignoreCase = true := rfl
  rw [hi, hm]
  simp only [Option.some.injEq, Match.mk.injEq, true_and, and_true]
  have hl : before.length + 5 + (B.length + 8) + 1 - before.length = (baseTag B).length := by
    simp [baseTag]; omega
  rw [hl, List.take_left']
  rfl

theorem matchAt_no_baseTag (before : Str) (c : Char) (cs X : Str)
    (h : startsWithCI (c :: cs) "<base".toList = false) :
    matchAt baseTagRe before (c :: cs ++ '<' :: X) = none := by
  have he : eatLiteral true "<base".toList (c :: cs ++ '<' :: X) = none := by
    apply eatLiteral_ext_cons '<' X '<' "base".toList c cs
    · simpa [startsWithCI] using h
    · decide
  unfold matchAt
  rw [baseTagRe_eq]
  simp only
  rw [matchRe_seq, matchRe_str]
  simp only [he]

theorem execFrom_skip_tag (X : Str) : ∀ (pre before : Str),
    includesCI pre "<base".toList = false →
    execFrom baseTagRe before (pre ++ '<' :: X) =
      execFrom baseTagRe (pre.reverse ++ before) ('<' :: X) := by
  intro pre
  induction pre with
  | nil => intro before _; rfl
  | cons c cs ih =>
    intro before h
    have h1 := includesCI_suffix "<base".toList (c :: cs) h (c :: cs) (List.suffix_refl _)
    have h2 : includesCI cs "<base".toList = false := by
      simp only [includesCI, Bool.or_eq_false_iff] at h; exact h.2
    have hm := matchAt_no_baseTag before c cs X h1
    simp only [List.cons_append] at hm ⊢
    rw [execFrom, hm]
    simp only
    rw [ih (c :: before) h2]
    simp

/-- The first base tag that `stripBaseTags` removes from such a document is
exactly the tag `<base href="B">`. -/
theorem baseTagRe_exec_tag (pre B post : Str)
    (hpre : includesCI pre "<base".toList = false) (hB : plainValue B = true) :
    baseTagRe.exec (pre ++ baseTag B ++ post) = some ⟨pre, baseTag B, post, []⟩ := by
  have hm := matchAt_baseTagRe (pre.reverse ++ []) B post hB
  unfold RegExp.exec
  have e : pre ++ baseTag B ++ post = pre ++ '<' :: ('b' :: 'a' :: 's' :: 'e' :: ' ' :: 'h' ::
      'r' :: 'e' :: 'f' :: '=' :: '"' :: (B ++ '"' :: '>' :: post)) := by
    rw [List.append_assoc, baseTag_append]
  rw [e, execFrom_skip_tag _ pre [] hpre, execFrom]
  rw [baseTag_append] at hm
  rw [hm]
  simp

theorem repeatMatcher_map (m : (MState → Option MState) → MState → Option MState)
    (grp : List Nat) (greedy : Bool) (g : MState → MState)
    (hm : ∀ (c : MState → Option MState) (x : MState),
      m (fun y => (c y).map g) x = (m c x).map g) :
    ∀ (fuel min : Nat) (max : Option Nat) (c : MState → Option MState) (x : MState),
      repeatMatcher m grp greedy fuel min max (fun y => (c y).map g) x =
        (repeatMatcher m grp greedy fuel min max c x).map g := by
  intro fuel
  induction fuel with
  | zero => intro min max c x; rfl
  | succ f ih =>
    intro min max c x
    rw [repeatMatcher, repeatMatcher]
    by_cases h0 : (max == some 0) = true
    · simp only [h0, if_true]
    · simp only [h0, Bool.false_eq_true, if_false]
      have hd : (fun y => if (min == 0 && y.pos == x.pos) = true then none
            else repeatMatcher m grp greedy f (min - 1) (Option.map (fun k => k - 1) max)
              (fun y => (c y).map g) y)
          = (fun y => ((fun y => if (min == 0 && y.pos == x.pos) = true then none
            else repeatMatcher m grp greedy f (min - 1) (Option.map (fun k => k - 1) max) c y)
              y).map g) := by
        funext y
        by_cases hy : (min == 0 && y.pos == x.pos) = true
        · simp only [hy, if_true, Option.map_none']
        · simp only [hy, Bool.false_eq_true, if_false, ih]
      rw [hd, hm]
      by_cases hmin : (min != 0) = true
      · simp only [hmin, if_true]
      · simp only [hmin, Bool.false_eq_true, if_false]
        cases greedy with
        | true =>
          simp only [if_true]
          cases m _ _ <;> rfl
        | false =>
          simp only [Bool.false_eq_true, if_false]
          cases c x <;> rfl

/-- Mapping the result of the continuation maps the result of the match: the
search depends on the continuation only through its success. -/
theorem matchRe_map (ci : Bool) (g : MState → MState) (r : Re) :
    ∀ (c : MState → Option MState) (x : MState),
      matchRe ci r (fun y => (c y).map g) x = (matchRe ci r c x).map g := by
  induction r with
  | empty => intro c x; rfl
  | ch a =>
    intro c x
    simp only [matchRe]
    cases x.rest with
    | nil => rfl
    | cons b bs => simp only; split <;> rfl
  | cls neg items =>
    intro c x
    simp only [matchRe]
    cases x.rest with
    | nil => rfl
    | cons b bs => simp only; split <;> rfl
  | seq a b iha ihb =>
    intro c x
    rw [matchRe_seq, matchRe_seq]
    have : (fun y => matchRe ci b (fun y => (c y).map g) y)
        = (fun y => (matchRe ci b c y).map g) := by funext y; exact ihb c y
    rw [this, iha]
  | alt a b iha ihb =>
    intro c x
    simp only [matchRe]
    rw [iha, ihb]
    cases matchRe ci a c x <;> rfl
  | rep min max greedy r ih =>
    intro c x
    rw [matchRe_rep, matchRe_rep]
    exact repeatMatcher_map (matchRe ci r) r.groups greedy g ih _ min max c x
  | group i r ih =>
    intro c x
    rw [matchRe_group, matchRe_group]
    exact ih (fun y => c { y with caps := (i, x.rest.take (y.pos - x.pos)) :: y.caps }) x
  | backref i =>
    intro c x
    simp only [matchRe]
    cases x.cap i with
    | none => rfl
    | some s => simp only; cases eatLiteral ci s x.rest <;> rfl
  | notAhead r _ =>
    intro c x
    simp only [matchRe]
    cases matchRe ci r some x <;> rfl
  | bol =>
    intro c x
    simp only [matchRe]
    split <;> rfl

theorem repeatMatcher_shift (m : (MState → Option MState) → MState → Option MState)
    (grp : List Nat) (greedy : Bool) (k : Nat)
    (hm : ∀ (c : MState → Option MState) (x : MState),
      m c (x.shift k) = m (fun y => c (y.shift k)) x) :
    ∀ (fuel min : Nat) (max : Option Nat) (c : MState → Option MState) (x : MState),
      repeatMatcher m grp greedy fuel min max c (x.shift k) =
        repeatMatcher m grp greedy fuel min max (fun y => c (y.shift k)) x := by
  intro fuel
  induction fuel with
  | zero => intro min max c x; rfl
  | succ f ih =>
    intro min max c x
    rw [repeatMatcher, repeatMatcher]
    by_cases h0 : (max == some 0) = true
    · simp only [h0, if_true]
    · simp only [h0, Bool.false_eq_true, if_false]
      have hxr : ({ x.shift k with caps := (x.shift k).caps.filter (fun p => !grp.contains p.1) }
          : MState) = MState.shift k { x with caps := x.caps.filter (fun p => !grp.contains p.1) } :=
        rfl
      have hd : (fun y => (fun y => if (min == 0 && y.pos == (x.shift k).pos) = true then none
            else repeatMatcher m grp greedy f (min - 1) (Option.map (fun k => k - 1) max) c y)
              (MState.shift k y))
          = (fun y => if (min == 0 && y.pos == x.pos) = true then none
            else repeatMatcher m grp greedy f (min - 1) (Option.map (fun k => k - 1) max)
              (fun y => c (y.shift k)) y) := by
        funext y
        have hp : ((MState.shift k y).pos == (x.shift k).pos) = (y.pos == x.pos) := by
          simp [MState.shift]
        simp only [hp, ih]
      rw [hxr, hm, hd]

theorem matchRe_shift (ci : Bool) (k : Nat) (r : Re) :
    r.plain = true → ∀ (c : MState → Option MState) (x : MState),
      matchRe ci r c (x.shift k) = matchRe ci r (fun y => c (y.shift k)) x := by
  induction r with
  | empty => intro _ c x; rfl
  | ch a =>
    intro _ c x
    simp only [matchRe, MState.shift]
    cases x.rest with
    | nil => rfl
    | cons b bs =>
      simp only
      have : x.pos + k + 1 = x.pos + 1 + k := by omega
      rw [this]
  | cls neg items =>
    intro _ c x
    simp only [matchRe, MState.shift]
    cases x.rest with
    | nil => rfl
    | cons b bs =>
      simp only
      have : x.pos + k + 1 = x.pos + 1 + k := by omega
      rw [this]
  | seq a b iha ihb =>
    intro h c x
    simp only [Re.plain, Bool.and_eq_true] at h
    rw [matchRe_seq, matchRe_seq, iha h.1]
    have : (fun y => (fun y => matchRe ci b c y) (MState.shift k y))
        = (fun y => matchRe ci b (fun y => c (MState.shift k y)) y) := by
      funext y; exact ihb h.2 c y
    rw [this]
  | alt a b iha ihb =>
    intro h c x
    simp only [Re.plain, Bool.and_eq_true] at h
    simp only [matchRe]
    rw [iha h.1, ihb h.2]
  | rep min max greedy r ih =>
    intro h c x
    rw [matchRe_rep, matchRe_rep]
    exact repeatMatcher_shift (matchRe ci r) r.groups greedy k (ih h) _ min max c x
  | group i r ih =>
    intro h c x
    rw [matchRe_group, matchRe_group, ih h]
    have : (fun y => (fun y => c { y with caps :=
            (i, (MState.shift k x).rest.take (y.pos - (MState.shift k x).pos)) :: y.caps })
            (MState.shift k y))
        = (fun y => (fun y => c (MState.shift k y))
            { y with caps := (i, x.rest.take (y.pos - x.pos)) :: y.caps }) := by
      funext y
      have : y.pos + k - (x.pos + k) = y.pos - x.pos := by omega
      simp only [MState.shift, this]
    rw [this]
  | backref i =>
    intro _ c x
    simp only [matchRe, MState.shift, MState.cap]
    cases (x.caps.find? fun p => p.1 == i) with
    | none => rfl
    | some s =>
      simp only [Option.map_some']
      cases eatLiteral ci s.2 x.rest with
      | none => rfl
      | some rest =>
        simp only
        have : x.pos + k + s.2.length = x.pos + s.2.length + k := by omega
        rw [this]
  | notAhead r _ => intro h; simp [Re.plain] at h
  | bol => intro h; simp [Re.plain] at h

theorem eatLiteral_length (ci : Bool) : ∀ (s rest r : Str), eatLiteral ci s rest = some r →
    r.length + s.length = rest.length := by
  intro s
  induction s with
  | nil => intro rest r h; simp [eatLiteral] at h; simp [h]
  | cons a ps ih =>
    intro rest r h
    cases rest with
    | nil => simp [eatLiteral] at h
    | cons c cs =>
      simp only [eatLiteral] at h
      split at h
      · have := ih cs r h
        simp only [List.length_cons]; omega
      · exact absurd h (by simp)

theorem MState.ahead_refl (x : MState) : x.ahead x := ⟨Nat.le_refl _, rfl⟩

theorem MState.ahead_trans {x y z : MState} (h1 : x.ahead y) (h2 : y.ahead z) : x.ahead z :=
  ⟨Nat.le_trans h2.1 h1.1, h2.2.trans h1.2⟩

theorem repeatMatcher_ahead (m : (MState → Option MState) → MState → Option MState)
    (grp : List Nat) (greedy : Bool)
    (hm : ∀ (c : MState → Option MState) (x z : MState),
      m c x = some z → ∃ y, c y = some z ∧ x.ahead y) :
    ∀ (fuel min : Nat) (max : Option Nat) (c : MState → Option MState) (x z : MState),
      repeatMatcher m grp greedy fuel min max c x = some z → ∃ y, c y = some z ∧ x.ahead y := by
  intro fuel
  induction fuel with
  | zero => intro min max c x z h; simp [repeatMatcher] at h
  | succ f ih =>
    intro min max c x z h
    rw [repeatMatcher] at h
    by_cases h0 : (max == some 0) = true
    · simp only [h0, if_true] at h
      exact ⟨x, h, x.ahead_refl⟩
    · simp only [h0, Bool.false_eq_true, if_false] at h
      have hstep : ∀ z', m (fun y => if (min == 0 && y.pos == x.pos) = true then none
            else repeatMatcher m grp greedy f (min - 1) (Option.map (fun k => k - 1) max) c y)
            { x with caps := x.caps.filter (fun p => !grp.contains p.1) } = some z' →
          ∃ y, c y = some z' ∧ x.ahead y := by
        intro z' hz
        obtain ⟨y1, hy1, ha1⟩ := hm _ _ _ hz
        by_cases hy : (min == 0 && y1.pos == x.pos) = true
        · simp only [hy, if_true] at hy1
          exact absurd hy1 (by simp)
        · simp only [hy, Bool.false_eq_true, if_false] at hy1
          obtain ⟨y2, hy2, ha2⟩ := ih _ _ _ _ _ hy1
          exact ⟨y2, hy2, MState.ahead_trans (x := x) ha1 ha2⟩
      by_cases hmin : (min != 0) = true
      · simp only [hmin, if_true] at h
        exact hstep z h
      · simp only [hmin, Bool.false_eq_true, if_false] at h
        cases greedy with
        | true =>
          simp only [if_true] at h
          split at h
          · rename_i z' hz
            have : z' = z := by simpa using h
            subst this
            exact hstep z' hz
          · exact ⟨x, h, x.ahead_refl⟩
        | false =>
          simp only [Bool.false_eq_true, if_false] at h
          split at h
          · rename_i z' hz
            have : z' = z := by simpa using h
            subst this
            exact ⟨x, hz, x.ahead_refl⟩
          · exact hstep z h

/-- A successful match ends in a success of the continuation at a state ahead
of the start. -/
theorem matchRe_ahead (ci : Bool) (r : Re) :
    ∀ (c : MState → Option MState) (x z : MState),
      matchRe ci r c x = some z → ∃ y, c y = some z ∧ x.ahead y := by
  induction r with
  | empty => intro c x z h; exact ⟨x, h, x.ahead_refl⟩
  | ch a =>
    intro c x z h
    simp only [matchRe] at h
    cases hx : x.rest with
    | nil => rw [hx] at h; exact absurd h (by simp)
    | cons b bs =>
      rw [hx] at h
      simp only at h
      split at h
      · exact ⟨_, h, by simp only [MState.ahead, hx, List.length_cons]; omega⟩
      · exact absurd h (by simp)
  | cls neg items =>
    intro c x z h
    simp only [matchRe] at h
    cases hx : x.rest with
    | nil => rw [hx] at h; exact absurd h (by simp)
    | cons b bs =>
      rw [hx] at h
      simp only at h
      split at h
      · exact ⟨_, h, by simp only [MState.ahead, hx, List.length_cons]; omega⟩
      · exact absurd h (by simp)
  | seq a b iha ihb =>
    intro c x z h
    rw [matchRe_seq] at h
    obtain ⟨y1, hy1, ha1⟩ := iha _ _ _ h
    obtain ⟨y2, hy2, ha2⟩ := ihb _ _ _ hy1
    exact ⟨y2, hy2, MState.ahead_trans (x := x) ha1 ha2⟩
  | alt a b iha ihb =>
    intro c x z h
    simp only [matchRe] at h
    split at h
    · rename_i z' hz
      have : z' = z := by simpa using h
      subst this
      exact iha _ _ _ hz
    · exact ihb _ _ _ h
  | rep min max greedy r ih =>
    intro c x z h
    rw [matchRe_rep] at h
    exact repeatMatcher_ahead (matchRe ci r) r.groups greedy ih _ min max c x z h
  | group i r ih =>
    intro c x z h
    rw [matchRe_group] at h
    obtain ⟨y, hy, ha⟩ := ih _ _ _ h
    exact ⟨_, hy, ha⟩
  | backref i =>
    intro c x z h
    simp only [matchRe] at h
    cases hc : x.cap i with
    | none => rw [hc] at h; exact ⟨x, h, x.ahead_refl⟩
    | some s =>
      rw [hc] at h
      simp only at h
      cases he : eatLiteral ci s x.rest with
      | none => rw [he] at h; exact absurd h (by simp)
      | some rest =>
        rw [he] at h
        have hl := eatLiteral_length ci s x.rest rest he
        exact ⟨_, h, by simp only [MState.ahead]; omega⟩
  | notAhead r _ =>
    intro c x z h
    simp only [matchRe] at h
    split at h
    · exact absurd h (by simp)
    · exact ⟨x, h, x.ahead_refl⟩
  | bol =>
    intro c x z h
    simp only [matchRe] at h
    split at h
    · exact ⟨x, h, x.ahead_refl⟩
    · exact absurd h (by simp)

theorem matchAt_after (R : RegExp) (b S : Str) (m : Match) (h : matchAt R b S = some m) :
    m.after.length ≤ S.length ∧ (m.matched ≠ [] → m.after.length < S.length) := by
  unfold matchAt at h
  split at h
  · exact absurd h (by simp)
  · rename_i y hy
    obtain ⟨y2, hy2, ha⟩ := matchRe_ahead _ _ _ _ _ hy
    have e : y2 = y := by simpa using hy2
    subst e
    have hm : m = ⟨b.reverse, S.take (y2.pos - b.length), y2.rest, y2.caps⟩ := by
      simpa using h.symm
    subst hm
    simp only [MState.ahead] at ha
    refine ⟨ha.1, ?_⟩
    intro hne
    simp only at hne ⊢
    by_contra hlt
    have : y2.pos - b.length = 0 := by omega
    rw [this] at hne
    exact hne rfl

theorem execFrom_after (R : RegExp) : ∀ (S b : Str) (m : Match), execFrom R b S = some m →
    m.after.length ≤ S.length ∧ (m.matched ≠ [] → m.after.length < S.length) := by
  intro S
  induction S with
  | nil => intro b m h; exact matchAt_after R b [] m h
  | cons c cs ih =>
    intro b m h
    rw [execFrom] at h
    split at h
    · rename_i m' hm'
      have : m' = m := by simpa using h
      subst this
      exact matchAt_after R b (c :: cs) m' hm'
    · have := ih (c :: b) m h
      simp only [List.length_cons]
      exact ⟨by omega, fun hne => by have := this.2 hne; omega⟩

theorem matchAt_shift (R : RegExp) (hR : R.re.plain = true) (b1 b S : Str) :
    matchAt R (b1 ++ b) S =
      (matchAt R b1 S).map (fun m => { m with before := b.reverse ++ m.before }) := by
  unfold matchAt
  have hx : ({ pos := (b1 ++ b).length, rest := S, caps := [] } : MState)
      = MState.shift b.length { pos := b1.length, rest := S, caps := [] } := by
    simp [MState.shift]
  rw [hx, matchRe_shift R.ignoreCase b.length R.re hR]
  have hc : (fun y => some (MState.shift b.length y))
      = (fun y => (some y).map (MState.shift b.length)) := by funext y; rfl
  rw [hc, matchRe_map]
  cases matchRe R.ignoreCase R.re some { pos := b1.length, rest := S, caps := [] } with
  | none => rfl
  | some y =>
    simp only [Option.map_some', MState.shift, List.reverse_append, List.length_append]
    have : y.pos + b.length - (b1.length + b.length) = y.pos - b1.length := by omega
    rw [this]

theorem execFrom_shift (R : RegExp) (hR : R.re.plain = true) (b : Str) :
    ∀ (S b1 : Str), execFrom R (b1 ++ b) S =
      (execFrom R b1 S).map (fun m => { m with before := b.reverse ++ m.before }) := by
  intro S
  induction S with
  | nil => intro b1; simp only [execFrom]; exact matchAt_shift R hR b1 b []
  | cons c cs ih =>
    intro b1
    rw [execFrom, execFrom, matchAt_shift R hR b1 b (c :: cs)]
    cases matchAt R b1 (c :: cs) with
    | some m => rfl
    | none =>
      simp only [Option.map_none']
      exact ih (c :: b1)

theorem replaceAllFrom_before (R : RegExp) (hR : R.re.plain = true) (f : Match → Str)
    (hf : ∀ (m : Match) (b : Str), f { m with before := b } = f m) :
    ∀ (fuel : Nat) (b S : Str),
      replaceAllFrom R f fuel b S = replaceAllFrom R f fuel [] S := by
  intro fuel
  induction fuel with
  | zero => intro b S; rfl
  | succ k ih =>
    intro b S
    have hs := execFrom_shift R hR b S []
    simp only [List.nil_append] at hs
    rw [replaceAllFrom, replaceAllFrom, hs]
    cases execFrom R [] S with
    | none => rfl
    | some m =>
      simp only [Option.map_some', hf, List.length_append, List.length_reverse,
        Nat.add_sub_cancel_left, List.length_nil, Nat.sub_zero]
      cases hm : m.matched.isEmpty with
      | true =>
        simp only [if_true]
        cases m.after with
        | nil => rfl
        | cons c cs =>
          simp only
          rw [ih (c :: _) cs, ih (c :: (m.matched.reverse ++ m.before.reverse)) cs]
      | false =>
        simp only [Bool.false_eq_true, if_false]
        rw [ih _ m.after, ih (m.matched.reverse ++ m.before.reverse) m.after]

theorem replaceAllFrom_fuel (R : RegExp) (f : Match → Str) :
    ∀ (fuel1 fuel2 : Nat) (b S : Str), S.length < fuel1 → S.length < fuel2 →
      replaceAllFrom R f fuel1 b S = replaceAllFrom R f fuel2 b S := by
  intro fuel1
  induction fuel1 with
  | zero => intro fuel2 b S h; exact absurd h (by simp)
  | succ k ih =>
    intro fuel2 b S h1 h2
    cases fuel2 with
    | zero => exact absurd h2 (by simp)
    | succ j =>
      rw [replaceAllFrom, replaceAllFrom]
      cases he : execFrom R b S with
      | none => rfl
      | some m =>
        have ha := execFrom_after R S b m he
        simp only
        cases hm : m.matched.isEmpty with
        | true =>
          simp only [if_true]
          cases hc : m.after with
          | nil => rfl
          | cons c cs =>
            simp only
            have hl : cs.length + 1 ≤ S.length := by
              have := ha.1; rw [hc] at this; simpa using this
            rw [ih j _ cs (by omega) (by omega)]
        | false =>
          simp only [Bool.false_eq_true, if_false]
          have hne : m.matched ≠ [] := by
            intro e; rw [e] at hm; simp at hm
          have := ha.2 hne
          rw [ih j _ m.after (by omega) (by omega)]

theorem getSubstitution_nil (n : Nat) (m : Match) : getSubstitution n m [] = [] := rfl

theorem stripBaseTags_eq (s : Str) :
    stripBaseTags s = replaceAllFrom baseTagRe (fun _ => []) (s.length + 1) [] s := by
  unfold stripBaseTags replaceAllStr replaceAll
  have : (fun m => getSubstitution baseTagRe.re.groups.length m []) = (fun _ => ([] : Str)) := by
    funext m; exact getSubstitution_nil _ m
  rw [this]

theorem stripBaseTags_tag (pre B post : Str)
    (hpre : includesCI pre "<base".toList = false) (hB : plainValue B = true) :
    stripBaseTags (pre ++ baseTag B ++ post) = pre ++ stripBaseTags post := by
  have hex := baseTagRe_exec_tag pre B post hpre hB
  unfold RegExp.exec at hex
  have hne : (baseTag B).isEmpty = false := by simp [baseTag]
  have hplain : baseTagRe.re.plain = true := by decide
  rw [stripBaseTags_eq, stripBaseTags_eq, replaceAllFrom, hex]
  simp only [hne, Bool.false_eq_true, if_false, List.length_nil, Nat.sub_zero, List.append_nil]
  rw [replaceAllFrom_before baseTagRe hplain (fun _ => []) (fun _ _ => rfl),
    replaceAllFrom_fuel baseTagRe _ (pre ++ baseTag B ++ post).length (post.length + 1) [] post
      (by simp [baseTag]; omega) (by omega)]
  have : pre ++ baseTag B ++ post = pre ++ (baseTag B ++ post) := by simp
  rw [this, List.take_left' rfl]

/-! ## The claims -/

/-- C1 (the code breaks the claim). On the absolute URL `https://a.com/`, with
self-origin `https://proxy.io`, `proxyUrl` gives the proxied URL, and applied to
that result it wraps it a second time instead of leaving it alone: the second
result is a proxied URL of the first one and differs from it. -/
theorem proxyUrl_wraps_proxied_again :
    proxyUrl whatwgURL "https://a.com/".toList "https://a.com/".toList "https://proxy.io".toList
      = "https://proxy.io/proxy?url=https%3A%2F%2Fa.com%2F".toList ∧
    proxyUrl whatwgURL
        (proxyUrl whatwgURL "https://a.com/".toList "https://a.com/".toList
          "https://proxy.io".toList)
        "https://a.com/".toList "https://proxy.io".toList
      = "https://proxy.io/proxy?url=https%3A%2F%2Fproxy.io%2Fproxy%3Furl%3Dhttps%253A%252F%252Fa.com%252F".toList ∧
    proxyUrl whatwgURL
        (proxyUrl whatwgURL "https://a.com/".toList "https://a.com/".toList
          "https://proxy.io".toList)
        "https://a.com/".toList "https://proxy.io".toList
      ≠ proxyUrl whatwgURL "https://a.com/".toList "https://a.com/".toList
          "https://proxy.io".toList := by
  decide!

/-- C2, as stated, fails: the reference `#a ` (a fragment followed by a space)
starts with the excluded `#`, yet `proxyUrl` returns `#a`, one character
shorter. -/
theorem proxyUrl_excluded_not_verbatim :
    excludedBySpec "#a ".toList = true ∧
    proxyUrl whatwgURL "#a ".toList "https://a.com/".toList "https://proxy.io".toList
      = "#a".toList ∧
    proxyUrl whatwgURL "#a ".toList "https://a.com/".toList "https://proxy.io".toList
      ≠ "#a ".toList := by
  decide!

/-- C2, amended: for every base, self-origin and reference `r` that starts, up
to case, with one of `javascript:`, `mailto:`, `tel:`, `data:`, `blob:` or `#`,
`proxyUrl` returns `trim r`, which is `r` without its trailing white space:
the reference is never resolved and never encoded, no character is added, and
it comes back byte for byte when it does not end in white space. -/
theorem proxyUrl_excluded (U : URLCtor) (r base o : Str) (h : excludedBySpec r = true) :
    proxyUrl U r base o = trim r ∧
    (∃ w : Str, r = proxyUrl U r base o ++ w ∧ ∀ c ∈ w, isWhiteSpace c = true) ∧
    (trimEnd r = r → proxyUrl U r base o = r) := by
  obtain ⟨hne, htrim, hx⟩ := excludedBySpec_trim r h
  have he : r.isEmpty = false := isEmpty_false_of_ne hne
  have hp : proxyUrl U r base o = trim r := by
    unfold proxyUrl
    simp only [he, excludedRe_test, hx, if_true]
    simp
  refine ⟨hp, ?_, ?_⟩
  · rw [hp, htrim]; exact trimEnd_split r
  · intro e; rw [hp, htrim, e]

/-- C2, amended, at the reference `JavaScript:void(0) `: it is excluded and
comes back without its trailing space. -/
theorem proxyUrl_excluded_witness :
    excludedBySpec "JavaScript:void(0) ".toList = true ∧
    proxyUrl whatwgURL "JavaScript:void(0) ".toList "https://a.com/".toList
      "https://proxy.io".toList = trim "JavaScript:void(0) ".toList :=
  ⟨by decide!, (proxyUrl_excluded whatwgURL "JavaScript:void(0) ".toList "https://a.com/".toList
    "https://proxy.io".toList (by decide!)).1⟩

/-- C3. Whenever `proxyUrl` reaches its encoding branch (`producesProxied`), its
result is the self-origin, then `/proxy?url=`, then a query value `e` such that
`e` is `encodeURIComponent` of the absolute URL `resolveUrl base (trim r)`, `e`
holds no reserved character (`; / ? : @ & = + $ , #`), every character of `e` being
an unescaped one or `%`, and `decodeURIComponent e` is exactly that absolute
URL. -/
theorem proxyUrl_round_trip (U : URLCtor) (r base o : Str)
    (h : producesProxied U r base = true) :
    ∃ resolved e : Str,
      resolveUrl U base (trim r) = some resolved ∧
      proxyUrl U r base o = o ++ "/proxy?url=".toList ++ e ∧
      e = encodeURIComponent resolved ∧
      (∀ c ∈ e, isUriUnescaped c = true ∨ c = '%') ∧
      (∀ c ∈ e, c ∉ uriReserved) ∧
      decodeURIComponent e = some resolved := by
  unfold producesProxied at h
  simp only [Bool.and_eq_true, Bool.not_eq_true', List.isEmpty_eq_false] at h
  obtain ⟨⟨hne, hx⟩, hres⟩ := h
  cases hrt : resolvedTarget U r base with
  | none => rw [hrt] at hres; exact absurd hres (by simp)
  | some resolved =>
    rw [hrt] at hres
    simp only at hres
    have he : r.isEmpty = false := isEmpty_false_of_ne hne
    have hresolve : resolveUrl U base (trim r) = some resolved := by
      unfold resolvedTarget at hrt
      by_cases hb : base.isEmpty = true
      · rw [if_pos hb] at hrt
        have e : trim r = resolved := by simpa using hrt
        have hnil : (trim r).isEmpty = false := by
          cases ht : trim r with
          | nil => rw [← e, ht] at hres; exact absurd hres (by decide)
          | cons a b => rfl
        have hidem : trim resolved = resolved := by rw [← e, trim_idem]
        rw [e] at hnil ⊢
        unfold resolveUrl
        simp only [hnil, Bool.false_eq_true, if_false, hidem, hres, if_true]
      · rw [if_neg hb] at hrt; exact hrt
    have hrt2 : (if base.isEmpty = true then some (trim r) else resolveUrl U base (trim r))
        = some resolved := hrt
    refine ⟨resolved, encodeURIComponent resolved, hresolve, ?_, rfl, encode_chars resolved, ?_,
      decode_encode resolved⟩
    · unfold proxyUrl
      simp only [he, Bool.false_eq_true, if_false, hx, hrt2, hres, Bool.not_true]
    · intro c hc hmem
      have hr : ∀ d ∈ uriReserved, isUriUnescaped d = false ∧ d ≠ '%' := by decide
      rcases encode_chars resolved c hc with h1 | h1
      · rw [(hr c hmem).1] at h1; exact absurd h1 (by simp)
      · exact (hr c hmem).2 h1

/-- C3 at the reference ` ../z.png?a=1&b=2#f ` against `https://a.com/x/y`. -/
theorem proxyUrl_round_trip_witness :
    ∃ resolved e : Str,
      resolveUrl whatwgURL "https://a.com/x/y".toList (trim " ../z.png?a=1&b=2#f ".toList)
        = some resolved ∧
      proxyUrl whatwgURL " ../z.png?a=1&b=2#f ".toList "https://a.com/x/y".toList
        "https://proxy.io".toList = "https://proxy.io".toList ++ "/proxy?url=".toList ++ e ∧
      e = encodeURIComponent resolved ∧
      (∀ c ∈ e, isUriUnescaped c = true ∨ c = '%') ∧
      (∀ c ∈ e, c ∉ uriReserved) ∧
      decodeURIComponent e = some resolved :=
  proxyUrl_round_trip whatwgURL " ../z.png?a=1&b=2#f ".toList "https://a.com/x/y".toList
    "https://proxy.io".toList (by decide!)

/-- C4. For a base that the platform parses with protocol `s:` and a reference
whose trimmed text starts with `//`, `resolveUrl` gives `s:` followed by the
trimmed reference; a reference that is neither empty, nor absolute `http(s)`,
nor protocol-relative is resolved by the platform's `new URL(reference, base)`
(and stays as it is, trimmed, when that throws); with the URL parser of the
URL Standard, `https://a.com/x/y` and `../z.png` give `https://a.com/z.png`,
and `//cdn.b.com/f.js` gives `https://cdn.b.com/f.js`. -/
theorem resolveUrl_correct :
    (∀ (U : URLCtor) (base r s : Str) (u : URL),
      U base none = some u → u.protocol = s ++ [':'] →
      startsWith (trim r) "//".toList = true →
      resolveUrl U base r = some (s ++ [':'] ++ trim r)) ∧
    (∀ (U : URLCtor) (base r : Str),
      r ≠ [] → httpRe.test (trim r) = false → startsWith (trim r) "//".toList = false →
      resolveUrl U base r =
        some (match U (trim r) (some base) with
              | some u => u.href
              | none => trim r)) ∧
    resolveUrl whatwgURL "https://a.com/x/y".toList "../z.png".toList
      = some "https://a.com/z.png".toList ∧
    resolveUrl whatwgURL "https://a.com/x/y".toList "//cdn.b.com/f.js".toList
      = some "https://cdn.b.com/f.js".toList := by
  refine ⟨?_, ?_, by decide!, by decide!⟩
  · intro U base r s u hu hp hs
    obtain ⟨t, ht⟩ := startsWith_slashes (trim r) hs
    have hne : r ≠ [] := trim_ne_nil (by rw [ht]; simp)
    have hhttp : httpRe.test (trim r) = false := by rw [ht]; exact httpRe_test_slash _
    unfold resolveUrl
    simp only [isEmpty_false_of_ne hne, Bool.false_eq_true, if_false, hhttp, hs, if_true, hu,
      Option.map_some', hp]
  · intro U base r hne hhttp hs
    unfold resolveUrl
    simp only [isEmpty_false_of_ne hne, Bool.false_eq_true, if_false, hhttp, hs]
    cases U (trim r) (some base) <;> rfl

/-- C4 at the base `http://a.com/x/y` and the reference ` //cdn.b.com/f.js`:
the scheme `http` of the base is inherited. -/
theorem resolveUrl_correct_witness :
    resolveUrl whatwgURL "http://a.com/x/y".toList " //cdn.b.com/f.js".toList
      = some ("http".toList ++ [':'] ++ trim " //cdn.b.com/f.js".toList) ∧
    resolveUrl whatwgURL "https://a.com/x/y".toList "s/t.css?v=1".toList
      = some "https://a.com/x/s/t.css?v=1".toList :=
  ⟨resolveUrl_correct.1 whatwgURL "http://a.com/x/y".toList " //cdn.b.com/f.js".toList
      "http".toList
      { protocol := "http:".toList, hostname := "a.com".toList, port := [],
        pathname := "/x/y".toList, search := [], href := "http://a.com/x/y".toList }
      (by decide!) (by decide!) (by decide!),
   (resolveUrl_correct.2.1 whatwgURL "https://a.com/x/y".toList "s/t.css?v=1".toList
      (by decide!) (by decide!) (by decide!)).trans (by decide!)⟩

/-- C5. With base `https://a.com/` and self-origin `https://proxy.io`, the markup
`<a href="/p">x</a>` has neither head nor body marker, so `rewriteHtml` puts the
navigation bar and the shim in front, and the document part after them is
exactly `<a href="https://proxy.io/proxy?url=https%3A%2F%2Fa.com%2Fp">x</a>`:
the href value is `proxyUrl` of `/p` and the rest of the element is unchanged. -/
theorem rewriteHtml_anchor_scenario :
    rewriteHtml whatwgURL "<a href=\"/p\">x</a>".toList "https://a.com/".toList
        "https://proxy.io".toList
      = some (buildNavbar "https://a.com/".toList "https://proxy.io".toList ++
          (buildShim "https://a.com/".toList "https://proxy.io".toList ++
            "<a href=\"https://proxy.io/proxy?url=https%3A%2F%2Fa.com%2Fp\">x</a>".toList)) ∧
    "<a href=\"https://proxy.io/proxy?url=https%3A%2F%2Fa.com%2Fp\">x</a>".toList
      = "<a href=\"".toList ++
          proxyUrl whatwgURL "/p".toList "https://a.com/".toList "https://proxy.io".toList ++
          "\">x</a>".toList := by
  decide!

/-- C6 (the code breaks the claim). The origin answers `image/png` with the
bytes `89 50 4E 47`; the handler takes the binary branch with status 200 and
the origin's content type, but the body it writes is `EF BF BD 50 4E 47`: the
fetcher decoded the bytes as UTF-8 text, and the byte `89` came back as the
encoding of U+FFFD. -/
theorem handler_binary_body_altered :
    handler pngOrigin 1
        { method := "GET".toList, host := "proxy.io".toList,
          queryUrl := some "https://a.com/i.png".toList, body := [] }
      = some (some
          { status := 200,
            headers := [("Access-Control-Allow-Origin".toList, "*".toList),
                        ("X-Frame-Options".toList, []),
                        ("Content-Type".toList, "image/png".toList),
                        ("Cache-Control".toList, "public, max-age=86400".toList)],
            body := [0xEF, 0xBF, 0xBD, 0x50, 0x4E, 0x47] }) ∧
    isTextType (toLowerCase "image/png".toList) = false ∧
    ([0xEF, 0xBF, 0xBD, 0x50, 0x4E, 0x47] : List Nat) ≠ [0x89, 0x50, 0x4E, 0x47] := by
  decide!

/-- C7 (the code breaks the claim). A JSON data island whose text holds
`href='/x'` does not pass through unchanged: the script pass leaves the block
alone, but the URL attribute pass, which runs over the whole document before
it, has already rewritten the `href` inside the block. -/
theorem rewriteHtml_alters_data_island :
    rewriteHtml whatwgURL
        "<script type=\"application/json\">\x7b\"html\":\"<a href='/x'>\"\x7d</script>".toList
        "https://a.com/".toList "https://proxy.io".toList
      = some (buildNavbar "https://a.com/".toList "https://proxy.io".toList ++
          (buildShim "https://a.com/".toList "https://proxy.io".toList ++
            "<script type=\"application/json\">\x7b\"html\":\"<a href='https://proxy.io/proxy?url=https%3A%2F%2Fa.com%2Fx'>\"\x7d</script>".toList)) ∧
    includes
        ((rewriteHtml whatwgURL
          "<script type=\"application/json\">\x7b\"html\":\"<a href='/x'>\"\x7d</script>".toList
          "https://a.com/".toList "https://proxy.io".toList).getD [])
        "<script type=\"application/json\">\x7b\"html\":\"<a href='/x'>\"\x7d</script>".toList
      = false := by
  decide!

/-- C8 (the code breaks the claim). In `<img data-src="/a.png">` the value is
rewritten twice: the pass for `src` matches inside `data-src` and the pass for
`data-src` then wraps the proxied URL again, so the value in the output is
`proxyUrl` of `proxyUrl` of `/a.png`, not `proxyUrl` of `/a.png`; the same
happens to `<a data-href="/p">` through the passes for `href` and
`data-href`. -/
theorem rewriteHtml_data_src_wrapped_twice :
    rewriteHtml whatwgURL "<img data-src=\"/a.png\">".toList "https://a.com/".toList
        "https://proxy.io".toList
      = some (buildNavbar "https://a.com/".toList "https://proxy.io".toList ++
          (buildShim "https://a.com/".toList "https://proxy.io".toList ++
            ("<img data-src=\"".toList ++
              proxyUrl whatwgURL
                (proxyUrl whatwgURL "/a.png".toList "https://a.com/".toList
                  "https://proxy.io".toList)
                "https://a.com/".toList "https://proxy.io".toList ++
              "\">".toList))) ∧
    rewriteHtml whatwgURL "<a data-href=\"/p\">".toList "https://a.com/".toList
        "https://proxy.io".toList
      = some (buildNavbar "https://a.com/".toList "https://proxy.io".toList ++
          (buildShim "https://a.com/".toList "https://proxy.io".toList ++
            ("<a data-href=\"".toList ++
              proxyUrl whatwgURL
                (proxyUrl whatwgURL "/p".toList "https://a.com/".toList
                  "https://proxy.io".toList)
                "https://a.com/".toList "https://proxy.io".toList ++
              "\">".toList))) ∧
    proxyUrl whatwgURL
        (proxyUrl whatwgURL "/a.png".toList "https://a.com/".toList "https://proxy.io".toList)
        "https://a.com/".toList "https://proxy.io".toList
      = "https://proxy.io/proxy?url=https%3A%2F%2Fproxy.io%2Fproxy%3Furl%3Dhttps%253A%252F%252Fa.com%252Fa.png".toList ∧
    proxyUrl whatwgURL "/a.png".toList "https://a.com/".toList "https://proxy.io".toList
      = "https://proxy.io/proxy?url=https%3A%2F%2Fa.com%2Fa.png".toList := by
  decide!

/-- One redirect hop of `fetchUrl`: when the target parses and its response is
a redirect with location `L`, the run issues the request for the target and
goes on as the run for `resolveUrl target L` with method `GET` and no body. -/
theorem fetchUrl_redirect_step (E : Env) (fuel : Nat) (target method : Str) (body : Option Str)
    (parsed : URL) (res : IncomingMessage) (location next : Str)
    (hp : E.newURL target none = some parsed)
    (hr : E.request (mkRequest parsed method body) = NetResult.response res)
    (hl : redirectLocation res = some location)
    (hn : resolveUrl E.newURL target location = some next) :
    fetchUrl E (fuel + 1) target method body =
      ⟨mkRequest parsed method body :: (fetchUrl E fuel next "GET".toList none).sent,
       (fetchUrl E fuel next "GET".toList none).settled⟩ := by
  rw [fetchUrl]
  simp only [hp, hr, hl, hn]

/-- A terminal response ends the run of `fetchUrl`. -/
theorem fetchUrl_terminal (E : Env) (fuel : Nat) (target method : Str) (body : Option Str)
    (parsed : URL) (res : IncomingMessage)
    (hp : E.newURL target none = some parsed)
    (hr : E.request (mkRequest parsed method body) = NetResult.response res)
    (hl : redirectLocation res = none) :
    fetchUrl E (fuel + 1) target method body =
      ⟨[mkRequest parsed method body], some (.ok (finishResponse E res))⟩ := by
  rw [fetchUrl]
  simp only [hp, hr, hl]

/-- With a base that parses, `resolveUrl` does not throw. -/
theorem resolveUrl_isSome (U : URLCtor) (base r : Str) (u : URL) (h : U base none = some u) :
    (resolveUrl U base r).isSome = true := by
  unfold resolveUrl
  by_cases h1 : r.isEmpty = true
  · simp [h1]
  · by_cases h2 : httpRe.test (trim r) = true
    · simp [h1, h2]
    · by_cases h3 : startsWith (trim r) "//".toList = true
      · simp only [h1, h2, h3, h, if_false, if_true, Option.map_some', Option.isSome_some,
          Bool.false_eq_true]
      · simp only [h1, h2, h3, if_false]
        cases U (trim r) (some base) <;> rfl

/-- C9. Whenever the document holds a base declaration, that is whenever the
source's base pattern matches and captures the href `B`, `rewriteHtml` runs all
its passes (URL attributes, srcset, style blocks, style attributes, script
blocks, shim and navigation bar) on the document without its base tags, each
with `resolveUrl documentUrl B` in place of the document URL. In particular a
document that holds the tag `<base href="B">` (with no `<base` in front of it;
`B` not empty, without quote or `>`, and without the letters `href`, over which
the source's pattern would backtrack) is rewritten as the same document
without that tag, with base `resolveUrl documentUrl B`. For the document URL
`https://a.com/` and `<base href="https://b.com/d/"><a href="p">` the output is
the navigation bar and the shim for `https://b.com/d/` followed by the anchor
with the proxied form of `https://b.com/d/p` as href. -/
theorem rewriteHtml_base_declaration :
    (∀ (U : URLCtor) (html documentUrl selfBase : Str) (m : Match),
      baseHrefRe.exec html = some m →
      rewriteHtml U html documentUrl selfBase =
        (resolveUrl U documentUrl (capText m 1)).map
          (fun base => rewritePasses U (stripBaseTags html) base selfBase)) ∧
    (∀ (U : URLCtor) (html base selfBase : Str),
      rewritePasses U html base selfBase =
        injectNavbar base selfBase (injectShim base selfBase
          (rewriteScriptBlocks U base selfBase (rewriteStyleAttrs U base selfBase
            (rewriteStyleBlocks U base selfBase (rewriteSrcset U base selfBase
              (rewriteAttrs U base selfBase html))))))) ∧
    (∀ (U : URLCtor) (pre B post documentUrl selfBase : Str),
      includesCI pre "<base".toList = false → plainValue B = true →
      includesCI B "href".toList = false →
      rewriteHtml U (pre ++ baseTag B ++ post) documentUrl selfBase =
        (resolveUrl U documentUrl B).map
          (fun base => rewritePasses U (pre ++ stripBaseTags post) base selfBase)) ∧
    rewriteHtml whatwgURL "<base href=\"https://b.com/d/\"><a href=\"p\">".toList
        "https://a.com/".toList "https://proxy.io".toList
      = some (buildNavbar "https://b.com/d/".toList "https://proxy.io".toList ++
          (buildShim "https://b.com/d/".toList "https://proxy.io".toList ++
            "<a href=\"https://proxy.io/proxy?url=https%3A%2F%2Fb.com%2Fd%2Fp\">".toList)) := by
  have general : ∀ (U : URLCtor) (html documentUrl selfBase : Str) (m : Match),
      baseHrefRe.exec html = some m →
      rewriteHtml U html documentUrl selfBase =
        (resolveUrl U documentUrl (capText m 1)).map
          (fun base => rewritePasses U (stripBaseTags html) base selfBase) := by
    intro U html documentUrl selfBase m hm
    unfold rewriteHtml updateBase
    rw [hm]
    simp only
    cases resolveUrl U documentUrl (capText m 1) <;> rfl
  refine ⟨general, ?_, ?_, by decide!⟩
  · intro U html base selfBase
    rfl
  · intro U pre B post documentUrl selfBase hpre hB hH
    obtain ⟨m, hm, hc⟩ := baseHrefRe_exec_tag pre B post hpre hB hH
    rw [general U _ documentUrl selfBase m hm, hc, stripBaseTags_tag pre B post hpre hB]

/-- C9 on a document with a relative base declaration after its title and one
reference for each pass: every reference is resolved against
`https://a.com/d/`, and the base tag is gone. -/
theorem rewriteHtml_base_declaration_witness :
    rewriteHtml whatwgURL
        ("<title>t</title>".toList ++ baseTag "/d/".toList ++
          ("<img src=\"i.png\" srcset=\"j.png 2x\">".toList ++
            "<style>p\x7bbackground:url(s.png)\x7d</style><p style=\"background:url(t.png)\">".toList))
        "https://a.com/x".toList "https://proxy.io".toList
      = some (buildNavbar "https://a.com/d/".toList "https://proxy.io".toList ++
          (buildShim "https://a.com/d/".toList "https://proxy.io".toList ++
            ("<title>t</title>".toList ++
             "<img src=\"https://proxy.io/proxy?url=https%3A%2F%2Fa.com%2Fd%2Fi.png\" ".toList ++
             "srcset=\"https://proxy.io/proxy?url=https%3A%2F%2Fa.com%2Fd%2Fj.png 2x\">".toList ++
             "<style>p\x7bbackground:url(https://proxy.io/proxy?url=https%3A%2F%2Fa.com%2Fd%2Fs.png)\x7d</style>".toList ++
             "<p style=\"background:url(https://proxy.io/proxy?url=https%3A%2F%2Fa.com%2Fd%2Ft.png)\">".toList))) :=
  (rewriteHtml_base_declaration.2.2.1 whatwgURL "<title>t</title>".toList "/d/".toList
      ("<img src=\"i.png\" srcset=\"j.png 2x\">".toList ++
        "<style>p\x7bbackground:url(s.png)\x7d</style><p style=\"background:url(t.png)\">".toList)
      "https://a.com/x".toList "https://proxy.io".toList
      (by decide!) (by decide!) (by decide!)).trans (by decide!)

/-- C10. When the target parses and its response has status 301, 302, 303, 307
or 308 and a location header `L` (set and not empty, as the source tests it),
`fetchUrl` issues the request for the target and goes on as the fetch of
`resolveUrl target L` with method `GET` and no body. Along a chain of such
redirects that ends in a response that is no redirect, `fetchUrl`, given more
fuel than the chain has hops, issues exactly the requests of the chain and
resolves to the terminal response: its status, its headers, and its body
(decompressed and decoded as text). -/
theorem fetchUrl_follows_redirects :
    (∀ (E : Env) (fuel : Nat) (target method : Str) (body : Option Str) (parsed : URL)
        (res : IncomingMessage) (location : Str),
      E.newURL target none = some parsed →
      E.request (mkRequest parsed method body) = NetResult.response res →
      redirectLocation res = some location →
      ∃ next, resolveUrl E.newURL target location = some next ∧
        fetchUrl E (fuel + 1) target method body =
          ⟨mkRequest parsed method body :: (fetchUrl E fuel next "GET".toList none).sent,
           (fetchUrl E fuel next "GET".toList none).settled⟩) ∧
    (∀ (E : Env) (hops : List (IncomingMessage × Str)) (target method : Str)
        (body : Option Str) (final : IncomingMessage) (fuel : Nat),
      followsChain E hops target method body final = true → hops.length < fuel →
      (fetchUrl E fuel target method body).sent = chainRequests E hops target method body ∧
      (fetchUrl E fuel target method body).settled = some (.ok (finishResponse E final)) ∧
      (finishResponse E final).status = final.statusCode ∧
      (finishResponse E final).headers = final.headers) := by
  constructor
  · intro E fuel target method body parsed res location hp hr hl
    have hs := resolveUrl_isSome E.newURL target location parsed hp
    obtain ⟨next, hn⟩ := Option.isSome_iff_exists.mp hs
    exact ⟨next, hn,
      fetchUrl_redirect_step E fuel target method body parsed res location next hp hr hl hn⟩
  · intro E hops
    induction hops with
    | nil =>
      intro target method body final fuel h hf
      cases fuel with
      | zero => exact absurd hf (by simp)
      | succ k =>
        simp only [followsChain] at h
        cases hp : E.newURL target none with
        | none => rw [hp] at h; exact absurd h (by simp)
        | some parsed =>
          rw [hp] at h
          simp only [Bool.and_eq_true, beq_iff_eq, Option.isNone_iff_eq_none] at h
          rw [fetchUrl_terminal E k target method body parsed final hp h.1 h.2]
          exact ⟨by simp only [chainRequests, hp], rfl, rfl, rfl⟩
    | cons hop rest ih =>
      intro target method body final fuel h hf
      obtain ⟨res, location⟩ := hop
      cases fuel with
      | zero => exact absurd hf (by simp)
      | succ k =>
        simp only [followsChain] at h
        cases hp : E.newURL target none with
        | none => rw [hp] at h; exact absurd h (by simp)
        | some parsed =>
          rw [hp] at h
          cases hn : resolveUrl E.newURL target location with
          | none => rw [hn] at h; simp at h
          | some next =>
            rw [hn] at h
            simp only [Bool.and_eq_true, beq_iff_eq] at h
            obtain ⟨⟨hr, hl⟩, hrest⟩ := h
            have hk : rest.length < k := by simpa using hf
            obtain ⟨h1, h2, h3, h4⟩ := ih next "GET".toList none final k hrest hk
            rw [fetchUrl_redirect_step E k target method body parsed res location next hp hr hl
              hn]
            exact ⟨by simp only [chainRequests, hp, hn, h1], h2, h3, h4⟩

/-- C10 on the origin that answers `POST /x/y` with status 302 and the
relative location `../z.png`: the fetcher asks for `/z.png` with `GET` and no
body and returns the status 200 and the body `ok` of that response. -/
theorem fetchUrl_follows_redirects_witness :
    ((fetchUrl redirectOrigin 2 "https://a.com/x/y".toList "POST".toList
        (some "a=1".toList)).sent
      = chainRequests redirectOrigin [(movedResponse, "../z.png".toList)]
          "https://a.com/x/y".toList "POST".toList (some "a=1".toList) ∧
    (fetchUrl redirectOrigin 2 "https://a.com/x/y".toList "POST".toList
        (some "a=1".toList)).settled
      = some (.ok (finishResponse redirectOrigin landedResponse)) ∧
    (finishResponse redirectOrigin landedResponse).status = landedResponse.statusCode ∧
    (finishResponse redirectOrigin landedResponse).headers = landedResponse.headers) ∧
    (chainRequests redirectOrigin [(movedResponse, "../z.png".toList)]
        "https://a.com/x/y".toList "POST".toList (some "a=1".toList)).map
          (fun r => (r.method, r.path, r.body))
      = [("POST".toList, "/x/y".toList, some "a=1".toList),
         ("GET".toList, "/z.png".toList, none)] ∧
    finishResponse redirectOrigin landedResponse
      = { body := "ok".toList, headers := landedResponse.headers, status := 200 } :=
  ⟨fetchUrl_follows_redirects.2 redirectOrigin [(movedResponse, "../z.png".toList)]
    "https://a.com/x/y".toList "POST".toList (some "a=1".toList) landedResponse 2
    (by decide!) (by decide), by decide!, by decide!⟩

end AiWeb
